import Mathlib

/-!
Verification of the `ldif` filter plugin (`plugins/filter/ldif.py`):
the weighted-DN comparison function `_dn_compare`, the record sorter
`ldif_sort`, and the LDIF codec `to_ldif` / `from_ldif`.

Python strings are modelled as Lean `String` (code-point sequences),
Python `int` as `Int`, and raised exceptions as `Except` errors.
-/

deriving instance DecidableEq for Except

namespace Ldif

/-! ### Code-point lexicographic comparison, modelling Python `str < str` -/

/-- Lexicographic strict order on character lists by code point, exactly the
order Python uses for `str < str` (compare code points at the first
differing position; a proper prefix is smaller). -/
def lexLt : List Char → List Char → Bool
  | [], [] => false
  | [], _ :: _ => true
  | _ :: _, [] => false
  | a :: as, b :: bs => if a = b then lexLt as bs else decide (a.toNat < b.toNat)

/-- Python `a < b` on strings. -/
def strLt (a b : String) : Bool := lexLt a.data b.data

/-! ### Lower-casing (Python `str.lower`, restricted to ASCII letters) -/

/-- ASCII lower-casing of one character, modelling Python `str.lower` on the
ASCII range (the DNs in scope are ASCII; Python also lowers non-ASCII
letters, which this model does not need). -/
def lowerChar (c : Char) : Char :=
  if 'A' ≤ c ∧ c ≤ 'Z' then Char.ofNat (c.toNat + 32) else c

/-- ASCII lower-casing of a string. -/
def lowerStr (s : String) : String := ⟨s.data.map lowerChar⟩

/-! ### Weight extraction: the regular expression `_WEIGHTED_ATTR` -/

/-- Greedily consumes a non-empty prefix of decimal digits, returning the
digits and the rest of the input; fails when the input does not start with
a digit.  This models the `\d+` part of `_WEIGHTED_ATTR` (restricted to
ASCII digits; the DNs in scope are ASCII). -/
def parseDigits : List Char → Option (List Char × List Char)
  | [] => none
  | c :: cs =>
    if c.isDigit then
      match parseDigits cs with
      | some (ds, rest) => some (c :: ds, rest)
      | none => some ([c], cs)
    else none

/-- Shared tail of the `_WEIGHTED_ATTR` match after the opening brace and
optional sign: `\d+` then the closing brace, then `(.+)$` under
`re.fullmatch` — the remainder must be non-empty and, because `.` does not
match a newline, must contain no newline. -/
def weightedTail (sign : List Char) (l : List Char) : Option (String × String) :=
  match parseDigits l with
  | some (ds, '}' :: rem) =>
    if rem = [] ∨ '\n' ∈ rem then none else some (⟨sign ++ ds⟩, ⟨rem⟩)
  | _ => none

/-- Models `_WEIGHTED_ATTR.fullmatch`, the compiled pattern
`^\x7b(-?\d+)\x7d(.+)$`: on success returns the two capture groups, the
textual weight (group 1, sign included) and the remainder (group 2). -/
def weightedAttrMatch (s : String) : Option (String × String) :=
  match s.data with
  | '{' :: '-' :: rest => weightedTail ['-'] rest
  | '{' :: rest => weightedTail [] rest
  | _ => none

/-- Value of a digit string, most significant digit first. -/
def digitsToNat (ds : List Char) : Nat :=
  ds.foldl (fun acc c => 10 * acc + (c.toNat - 48)) 0

/-- Python `int(w)` on the strings produced by group 1 of `_WEIGHTED_ATTR`
(an optional minus sign followed by decimal digits). -/
def strToInt (s : String) : Int :=
  match s.data with
  | '-' :: ds => -(digitsToNat ds : Int)
  | ds => (digitsToNat ds : Int)

/-- Interface of §4.2 of the spec: optional integer weight plus remainder;
on a non-match the original string is returned unchanged. -/
def extractWeight (s : String) : Option Int × String :=
  match weightedAttrMatch s with
  | some (w, r) => (some (strToInt w), r)
  | none => (none, s)

/-! ### DN decomposition -/

/-- Modelled from the spec: the external DN-grammar collaborator
(`ldap.dn.explode_dn` / `ldap.dn.str2dn`, provided by python-ldap, not part
of this repository).  Splits a character list at every unescaped occurrence
of `sep`; a backslash escapes the following character and both are kept
verbatim in the current piece ("values are kept verbatim", §4.2). -/
def splitEsc (sep : Char) : List Char → List Char → List (List Char)
  | [], acc => [acc.reverse]
  | '\\' :: c :: rest, acc => splitEsc sep rest (c :: '\\' :: acc)
  | c :: rest, acc =>
    if c = sep then acc.reverse :: splitEsc sep rest []
    else splitEsc sep rest (c :: acc)

/-- Finds the first occurrence of `sep` and splits there. -/
def splitFirst (sep : Char) : List Char → Option (List Char × List Char)
  | [] => none
  | c :: rest =>
    if c = sep then some ([], rest)
    else (splitFirst sep rest).map (fun p => (c :: p.1, p.2))

/-- Modelled from the spec: one attribute/value pair of an RDN, split at the
first `=` (§4.2: each RDN component is an `attribute=value` pair). -/
def avOfChars (l : List Char) : String × String :=
  match splitFirst '=' l with
  | some (a, v) => (⟨a⟩, ⟨v⟩)
  | none => (⟨l⟩, "")

/-- Modelled from the spec: `ldap.dn.explode_dn` — split a DN into its RDN
component strings at unescaped commas (§4.2). -/
def explode_dn (dn : String) : List String :=
  (splitEsc ',' dn.data []).map (fun l => ⟨l⟩)

/-- Modelled from the spec: `ldap.dn.str2dn` applied to a single RDN string,
as done by `_next_rdn`; yields the RDN's attribute/value pairs, one per
unescaped `+` (§4.2: a multi-valued RDN has more than one pair). -/
def str2dn_rdn (s : String) : List (String × String) :=
  (splitEsc '+' s.data []).map avOfChars

/-- Models `_rdn_av`: lower-cased attribute name and verbatim value of the
first attribute/value pair of an RDN. -/
def _rdn_av (rdn : List (String × String)) : String × String :=
  match rdn with
  | (a, v) :: _ => (lowerStr a, v)
  | [] => ("", "")

/-! ### The comparison function `_dn_compare` -/

/-- Errors raised by `_dn_compare` (both are `AnsibleFilterError` in the
source, distinguished here by their message). -/
inductive CmpErr where
  | multiValuedRDN
  | mixedWeighting
deriving DecidableEq

/-- Weight handling for one pair of values with equal attribute names,
lines 97–105 of the source: when both values match `_WEIGHTED_ATTR` and the
two weight strings differ, the whole comparison returns
`int(w1) - int(w2)` immediately (`some r`); when both match with equal
weight strings, both values are replaced by their remainders; when exactly
one matches and mixing is not allowed, the comparison fails; otherwise the
values are left unchanged and the comparison falls through. -/
def weightStep (mix : Bool) (v1 v2 : String) :
    Except CmpErr (Option Int × String × String) :=
  match weightedAttrMatch v1, weightedAttrMatch v2 with
  | some (w1, r1), some (w2, r2) =>
    if w1 ≠ w2 then .ok (some (strToInt w1 - strToInt w2), r1, r2)
    else .ok (none, r1, r2)
  | none, none => .ok (none, v1, v2)
  | _, _ => if mix then .ok (none, v1, v2) else .error .mixedWeighting

/-- Body of one iteration of the `_dn_compare` loop (lines 85–109) on one
pair of RDN strings: the multi-valued check, the attribute-name
comparison, the weight handling, and the value comparison.  Returns
`some r` when the iteration returns `r` from the whole comparison, `none`
when it falls through to the next pair. -/
def compOne (mix : Bool) (s1 s2 : String) : Except CmpErr (Option Int) :=
  let rdn1 := str2dn_rdn s1
  let rdn2 := str2dn_rdn s2
  if rdn1.length ≠ 1 ∨ rdn2.length ≠ 1 then .error .multiValuedRDN
  else
    let av1 := _rdn_av rdn1
    let av2 := _rdn_av rdn2
    if strLt av1.1 av2.1 then .ok (some (-1))
    else if strLt av2.1 av1.1 then .ok (some 1)
    else
      match weightStep mix av1.2 av2.2 with
      | .error e => .error e
      | .ok (some r, _, _) => .ok (some r)
      | .ok (none, x, y) =>
        if strLt x y then .ok (some (-1))
        else if strLt y x then .ok (some 1)
        else .ok none

/-- Main loop of `_dn_compare` (lines 84–110).  The source pops RDNs from
the end of the exploded lists; here both lists are passed already reversed
(rightmost RDN first) and consumed from the head, which is the same
traversal.  On exhaustion of either side the source returns
`len(dn1_rdns) - len(dn2_rdns)` over the remaining components. -/
def dnCompareLoop (mix : Bool) : List String → List String → Except CmpErr Int
  | s1 :: rest1, s2 :: rest2 =>
    match compOne mix s1 s2 with
    | .error e => .error e
    | .ok (some r) => .ok r
    | .ok none => dnCompareLoop mix rest1 rest2
  | l1, l2 => .ok ((l1.length : Int) - (l2.length : Int))

/-- Record as seen by the sorter: the `dn` entry of the dictionary plus an
opaque tag standing for the rest of the record's content (the comparison
only ever reads `rec["dn"]`). -/
structure SRecord where
  dn : String
  tag : Nat
deriving DecidableEq

/-- Models `_dn_compare(rec1, rec2, mix_weighted)`: equal DN strings compare
equal immediately without decomposition; otherwise both DNs are exploded
and compared rightmost component first. -/
def _dn_compare (rec1 rec2 : SRecord) (mix : Bool) : Except CmpErr Int :=
  if rec1.dn = rec2.dn then .ok 0
  else dnCompareLoop mix (explode_dn rec1.dn).reverse (explode_dn rec2.dn).reverse

/-! ### The sorter `ldif_sort` -/

instance : Inhabited SRecord := ⟨⟨"", 0⟩⟩

/-- Integer sort key of a pair of records; a failed comparison contributes a
neutral `0` (such keys are only used when no comparison fails). -/
def cmpKey (mix : Bool) (a b : SRecord) : Int :=
  ((_dn_compare a b mix).toOption).getD 0

/-- Boolean strict "less than" derived from `cmpKey`: the `pivot < a[p]`
test CPython's list sort performs through `functools.cmp_to_key`. -/
def sortLt (mix : Bool) (a b : SRecord) : Bool := cmpKey mix a b < 0

/-- Boolean "less or equal" relation derived from `cmpKey`; `sortLE a b`
says the sort may keep `a` before `b`. -/
def sortLE (mix : Bool) (a b : SRecord) : Bool := cmpKey mix a b ≤ 0

/-- Modelled from the spec: the binary search of CPython's `binarysort`
(`listobject.c`) — find the insertion position of `pivot` inside the sorted
prefix `a[0..r)` by probing midpoints: when `pivot < a[p]` continue in the
left half, otherwise right of `p`.  The fuel argument bounds the number of
probes; `r - l` always suffices because every probe shrinks the range. -/
def binSearchAux (lt : SRecord → SRecord → Bool) (a : List SRecord)
    (pivot : SRecord) : Nat → Nat → Nat → Nat
  | 0, l, _ => l
  | fuel + 1, l, r =>
    if l < r then
      if lt pivot (a.getD (l + (r - l) / 2) default) then
        binSearchAux lt a pivot fuel l (l + (r - l) / 2)
      else
        binSearchAux lt a pivot fuel (l + (r - l) / 2 + 1) r
    else l

/-- The binary search over the range `[l, r)` with sufficient fuel. -/
def binSearchPos (lt : SRecord → SRecord → Bool) (a : List SRecord)
    (pivot : SRecord) (l r : Nat) : Nat :=
  binSearchAux lt a pivot (r - l) l r

/-- Inserts an element at a given position of a list. -/
def insertAt (a : List SRecord) (pos : Nat) (x : SRecord) : List SRecord :=
  a.take pos ++ x :: a.drop pos

/-- Modelled from the spec: the insertion pass of CPython's `binarysort` —
each remaining element is inserted into the growing sorted prefix at the
position found by `binSearchPos`. -/
def binInsertAll (lt : SRecord → SRecord → Bool)
    (run : List SRecord) (rest : List SRecord) : List SRecord :=
  rest.foldl (fun acc pivot => insertAt acc (binSearchPos lt acc pivot 0 acc.length) pivot) run

/-- Modelled from the spec: the ascending branch of CPython's `count_run` —
starting from `x`, extend the run while the next element is not strictly
less than its predecessor; returns the run and the unconsumed rest. -/
def countRunAsc (lt : SRecord → SRecord → Bool) :
    SRecord → List SRecord → List SRecord × List SRecord
  | x, [] => ([x], [])
  | x, y :: rest =>
    if lt y x then ([x], y :: rest)
    else
      let p := countRunAsc lt y rest
      (x :: p.1, p.2)

/-- Modelled from the spec: the descending branch of CPython's `count_run`
— extend while strictly descending; the caller reverses the run. -/
def countRunDesc (lt : SRecord → SRecord → Bool) :
    SRecord → List SRecord → List SRecord × List SRecord
  | x, [] => ([x], [])
  | x, y :: rest =>
    if lt y x then
      let p := countRunDesc lt y rest
      (x :: p.1, p.2)
    else ([x], y :: rest)

/-- Modelled from the spec: Python's builtin stable `sorted` under a
comparator.  On lists of fewer than 64 elements CPython's list sort is
exactly: detect the natural leading run (reversing it when strictly
descending), then insert every remaining element into the sorted prefix by
binary search.  Longer lists additionally merge runs (Timsort), which no
claim exercises and this model does not reproduce. -/
def pySorted (lt : SRecord → SRecord → Bool) : List SRecord → List SRecord
  | [] => []
  | x :: y :: rest =>
    if lt y x then
      let p := countRunDesc lt x (y :: rest)
      binInsertAll lt p.1.reverse p.2
    else
      let p := countRunAsc lt x (y :: rest)
      binInsertAll lt p.1 p.2
  | [x] => [x]

/-- First comparison error over all ordered pairs of records, if any. -/
def firstCmpError (data : List SRecord) (mix : Bool) : Option CmpErr :=
  data.findSome? fun a => data.findSome? fun b =>
    match _dn_compare a b mix with
    | .error e => some e
    | .ok _ => none

/-- Models `ldif_sort(data, allow_mix_weighted)`, which sorts with Python's
stable `sorted` under `cmp_to_key`.  A comparison error raised by the
comparator propagates out of `sorted` and aborts it; this is modelled as:
the sort fails exactly when some ordered pair of records fails to compare
(the set of pairs an actual run compares is an implementation detail of
the sort). -/
def ldif_sort (data : List SRecord) (mix : Bool) : Except CmpErr (List SRecord) :=
  match firstCmpError data mix with
  | some e => .error e
  | none => .ok (pySorted (sortLt mix) data)

/-! ### The Python data model for the codec -/

/-- Python values as they reach `to_ldif` / leave `from_ldif`: strings,
integers, byte strings, lists, dictionaries (association lists in
insertion order, as Python dictionaries are ordered), and `None` standing
for any further type an Ansible variable could hold. -/
inductive PyVal where
  | str : String → PyVal
  | int : Int → PyVal
  | bytes : List Nat → PyVal
  | list : List PyVal → PyVal
  | dict : List (PyVal × PyVal) → PyVal
  | none_ : PyVal

mutual

/-- Structural equality test on `PyVal` (the derive handler does not
support this nested inductive). -/
def pyValBEq : PyVal → PyVal → Bool
  | .str a, .str b => a == b
  | .int a, .int b => a == b
  | .bytes a, .bytes b => a == b
  | .list a, .list b => pyListBEq a b
  | .dict a, .dict b => pyDictBEq a b
  | .none_, .none_ => true
  | _, _ => false

/-- Elementwise `pyValBEq` on lists. -/
def pyListBEq : List PyVal → List PyVal → Bool
  | [], [] => true
  | x :: xs, y :: ys => pyValBEq x y && pyListBEq xs ys
  | _, _ => false

/-- Elementwise `pyValBEq` on association lists. -/
def pyDictBEq : List (PyVal × PyVal) → List (PyVal × PyVal) → Bool
  | [], [] => true
  | (k1, v1) :: xs, (k2, v2) :: ys => pyValBEq k1 k2 && pyValBEq v1 v2 && pyDictBEq xs ys
  | _, _ => false

end

mutual

def pyValBEq_iff : ∀ a b : PyVal, pyValBEq a b = true ↔ a = b
  | .str a, .str b => by simp [pyValBEq]
  | .int a, .int b => by simp [pyValBEq]
  | .bytes a, .bytes b => by simp [pyValBEq]
  | .list a, .list b => by
    simp only [pyValBEq, PyVal.list.injEq]
    exact pyListBEq_iff a b
  | .dict a, .dict b => by
    simp only [pyValBEq, PyVal.dict.injEq]
    exact pyDictBEq_iff a b
  | .none_, .none_ => by simp [pyValBEq]
  | .str _, .int _ => by simp [pyValBEq]
  | .str _, .bytes _ => by simp [pyValBEq]
  | .str _, .list _ => by simp [pyValBEq]
  | .str _, .dict _ => by simp [pyValBEq]
  | .str _, .none_ => by simp [pyValBEq]
  | .int _, .str _ => by simp [pyValBEq]
  | .int _, .bytes _ => by simp [pyValBEq]
  | .int _, .list _ => by simp [pyValBEq]
  | .int _, .dict _ => by simp [pyValBEq]
  | .int _, .none_ => by simp [pyValBEq]
  | .bytes _, .str _ => by simp [pyValBEq]
  | .bytes _, .int _ => by simp [pyValBEq]
  | .bytes _, .list _ => by simp [pyValBEq]
  | .bytes _, .dict _ => by simp [pyValBEq]
  | .bytes _, .none_ => by simp [pyValBEq]
  | .list _, .str _ => by simp [pyValBEq]
  | .list _, .int _ => by simp [pyValBEq]
  | .list _, .bytes _ => by simp [pyValBEq]
  | .list _, .dict _ => by simp [pyValBEq]
  | .list _, .none_ => by simp [pyValBEq]
  | .dict _, .str _ => by simp [pyValBEq]
  | .dict _, .int _ => by simp [pyValBEq]
  | .dict _, .bytes _ => by simp [pyValBEq]
  | .dict _, .list _ => by simp [pyValBEq]
  | .dict _, .none_ => by simp [pyValBEq]
  | .none_, .str _ => by simp [pyValBEq]
  | .none_, .int _ => by simp [pyValBEq]
  | .none_, .bytes _ => by simp [pyValBEq]
  | .none_, .list _ => by simp [pyValBEq]
  | .none_, .dict _ => by simp [pyValBEq]

def pyListBEq_iff : ∀ a b : List PyVal, pyListBEq a b = true ↔ a = b
  | [], [] => by simp [pyListBEq]
  | [], _ :: _ => by simp [pyListBEq]
  | _ :: _, [] => by simp [pyListBEq]
  | x :: xs, y :: ys => by
    simp only [pyListBEq, Bool.and_eq_true, List.cons.injEq]
    exact and_congr (pyValBEq_iff x y) (pyListBEq_iff xs ys)

def pyDictBEq_iff : ∀ a b : List (PyVal × PyVal), pyDictBEq a b = true ↔ a = b
  | [], [] => by simp [pyDictBEq]
  | [], _ :: _ => by simp [pyDictBEq]
  | _ :: _, [] => by simp [pyDictBEq]
  | (k1, v1) :: xs, (k2, v2) :: ys => by
    simp only [pyDictBEq, Bool.and_eq_true, List.cons.injEq, Prod.mk.injEq]
    rw [pyValBEq_iff k1 k2, pyValBEq_iff v1 v2, pyDictBEq_iff xs ys, and_assoc]

end

instance : DecidableEq PyVal := fun a b =>
  decidable_of_iff (pyValBEq a b = true) (pyValBEq_iff a b)

/-! ### Python `str()` of the values reaching the serializer -/

/-- Character of one decimal digit. -/
def digitChar : Nat → Char
  | 0 => '0'
  | 1 => '1'
  | 2 => '2'
  | 3 => '3'
  | 4 => '4'
  | 5 => '5'
  | 6 => '6'
  | 7 => '7'
  | 8 => '8'
  | _ => '9'

/-- Decimal digits of a natural number, most significant first; the fuel
bounds the number of digits and `n + 1` always suffices. -/
def natDigitsAux : Nat → Nat → List Char
  | 0, _ => []
  | fuel + 1, n =>
    if n < 10 then [digitChar n]
    else natDigitsAux fuel (n / 10) ++ [digitChar (n % 10)]

/-- Decimal digits of a natural number, most significant first. -/
def natDigits (n : Nat) : List Char :=
  natDigitsAux (n + 1) n

/-- Python `str(n)` for an integer: decimal digits with a leading minus
sign when negative. -/
def intStr (n : Int) : String :=
  if n < 0 then ⟨'-' :: natDigits n.natAbs⟩ else ⟨natDigits n.natAbs⟩

/-- Single-quote character, used by Python `repr` of strings. -/
def sq : Char := Char.ofNat 39

mutual

/-- Python `str(v)` as applied by `to_ldif` to attribute values: a string
is itself, an integer its decimal form, `None` prints `None`, and
container values print via `repr` of their elements (quoting of inner
strings is simplified to plain single quotes). -/
def pyStr : PyVal → String
  | .str s => s
  | .int n => intStr n
  | .bytes bs => "b" ++ ⟨[sq]⟩ ++ ⟨bs.map Char.ofNat⟩ ++ ⟨[sq]⟩
  | .list l => "[" ++ pyReprList l ++ "]"
  | .dict l => "\x7b" ++ pyReprDict l ++ "\x7d"
  | .none_ => "None"

/-- Python `repr(v)`, differing from `str` only on strings. -/
def pyRepr : PyVal → String
  | .str s => ⟨[sq]⟩ ++ s ++ ⟨[sq]⟩
  | .int n => intStr n
  | .bytes bs => "b" ++ ⟨[sq]⟩ ++ ⟨bs.map Char.ofNat⟩ ++ ⟨[sq]⟩
  | .list l => "[" ++ pyReprList l ++ "]"
  | .dict l => "\x7b" ++ pyReprDict l ++ "\x7d"
  | .none_ => "None"

/-- Comma-separated `repr`s of list elements. -/
def pyReprList : List PyVal → String
  | [] => ""
  | [x] => pyRepr x
  | x :: y :: rest => pyRepr x ++ ", " ++ pyReprList (y :: rest)

/-- Comma-separated `repr`s of dictionary entries. -/
def pyReprDict : List (PyVal × PyVal) → String
  | [] => ""
  | [(k, v)] => pyRepr k ++ ": " ++ pyRepr v
  | (k, v) :: e :: rest => pyRepr k ++ ": " ++ pyRepr v ++ ", " ++ pyReprDict (e :: rest)

end

/-! ### `to_ldif`: validation and pre-processing -/

/-- Failures of `to_ldif`'s validation pass, each an
`AnsibleFilterTypeError` in the source whose message embeds the offending
record (and attribute key where one exists); the payloads model that
context. -/
inductive ToLdifErr where
  | notAList
  | notADict (record : PyVal)
  | noDN (record : PyVal)
  | dnNotString (record : PyVal)
  | badAttrName (record : PyVal)
  | badAttrValue (record : PyVal) (key : PyVal)
deriving DecidableEq

/-- Pre-processing loop over one record's entries (lines 181–191): the
`dn` key is skipped, attribute names must be strings, a string or integer
value becomes a one-element list of its `str()` form, a list value is
`str()`-converted elementwise with no check on the element types, and any
other value type fails. -/
def processEntries (record : PyVal) :
    List (PyVal × PyVal) → Except ToLdifErr (List (String × List String))
  | [] => .ok []
  | (k, v) :: rest =>
    if k = .str "dn" then processEntries record rest
    else
      match k with
      | .str ks =>
        match v with
        | .str s => (processEntries record rest).map (fun t => (ks, [s]) :: t)
        | .int n => (processEntries record rest).map (fun t => (ks, [intStr n]) :: t)
        | .list es => (processEntries record rest).map (fun t => (ks, es.map pyStr) :: t)
        | _ => .error (.badAttrValue record k)
      | _ => .error (.badAttrName record)

/-- Validation and pre-processing of one record (lines 170–192): it must
be a dictionary, expose a `dn` key bound to a string, and pass
`processEntries`. -/
def processRecord (r : PyVal) : Except ToLdifErr (String × List (String × List String)) :=
  match r with
  | .dict entries =>
    match (entries.find? (fun kv => kv.1 == PyVal.str "dn")).map Prod.snd with
    | none => .error (.noDN r)
    | some (PyVal.str d) => (processEntries r entries).map (fun a => (d, a))
    | some _ => .error (.dnNotString r)
  | _ => .error (.notADict r)

/-! ### The LDIF line grammar (the external `ldif` library collaborator) -/

/-- Modelled from the spec: the standard's safe-string rule (§4.1) — a
value may be written in plain `attr: value` form when it is ASCII, free of
NUL, CR and LF, does not start with a space, colon or `<`, and does not
end with a space; otherwise the writer must use the `::` base64 form. -/
def safeString (s : String) : Bool :=
  s.data.all (fun c => decide (c.toNat < 128 ∧ c ≠ Char.ofNat 0 ∧ c ≠ '\r' ∧ c ≠ '\n'))
  && (match s.data with
      | [] => true
      | c :: _ => decide (c ≠ ' ' ∧ c ≠ ':' ∧ c ≠ '<'))
  && (match s.data.getLast? with
      | some c => decide (c ≠ ' ')
      | none => true)

/-- UTF-8 bytes of one code point. -/
def utf8Char (n : Nat) : List Nat :=
  if n < 128 then [n]
  else if n < 2048 then [192 + n / 64, 128 + n % 64]
  else if n < 65536 then [224 + n / 4096, 128 + (n / 64) % 64, 128 + n % 64]
  else [240 + n / 262144, 128 + (n / 4096) % 64, 128 + (n / 64) % 64, 128 + n % 64]

/-- UTF-8 byte sequence of a string (Python `str.encode()`). -/
def utf8Bytes (s : String) : List Nat :=
  s.data.foldr (fun c acc => utf8Char c.toNat ++ acc) []

/-- Decodes one UTF-8 sequence from the head of a byte list. -/
def utf8DecodeOne : List Nat → Option (Nat × List Nat)
  | [] => none
  | b :: rest =>
    if b < 128 then some (b, rest)
    else if 192 ≤ b ∧ b < 224 then
      match rest with
      | b2 :: rest2 =>
        if 128 ≤ b2 ∧ b2 < 192 then
          let n := (b - 192) * 64 + (b2 - 128)
          if 128 ≤ n then some (n, rest2) else none
        else none
      | _ => none
    else if 224 ≤ b ∧ b < 240 then
      match rest with
      | b2 :: b3 :: rest3 =>
        if (128 ≤ b2 ∧ b2 < 192) ∧ (128 ≤ b3 ∧ b3 < 192) then
          let n := (b - 224) * 4096 + (b2 - 128) * 64 + (b3 - 128)
          if 2048 ≤ n ∧ ¬(55296 ≤ n ∧ n ≤ 57343) then some (n, rest3) else none
        else none
      | _ => none
    else if 240 ≤ b ∧ b < 248 then
      match rest with
      | b2 :: b3 :: b4 :: rest4 =>
        if (128 ≤ b2 ∧ b2 < 192) ∧ (128 ≤ b3 ∧ b3 < 192) ∧ (128 ≤ b4 ∧ b4 < 192) then
          let n := (b - 240) * 262144 + (b2 - 128) * 4096 + (b3 - 128) * 64 + (b4 - 128)
          if 65536 ≤ n ∧ n < 1114112 then some (n, rest4) else none
        else none
      | _ => none
    else none

/-- Decodes a full UTF-8 byte list into code points (fuelled by the byte
count, which bounds the number of decoded characters). -/
def utf8DecodeAux : Nat → List Nat → Option (List Char)
  | _, [] => some []
  | 0, _ :: _ => none
  | fuel + 1, b :: rest =>
    match utf8DecodeOne (b :: rest) with
    | some (n, rem) => (utf8DecodeAux fuel rem).map (Char.ofNat n :: ·)
    | none => none

/-- Decodes a full UTF-8 byte list into code points. -/
def utf8Decode (bs : List Nat) : Option (List Char) :=
  utf8DecodeAux bs.length bs

/-- Models `_try_utf8`: decode the bytes as UTF-8 into a string, keeping
the raw bytes when decoding fails. -/
def _try_utf8 (bs : List Nat) : PyVal :=
  match utf8Decode bs with
  | some cs => .str ⟨cs⟩
  | none => .bytes bs

/-- Character of one 6-bit group in the standard base64 alphabet. -/
def b64Char (n : Nat) : Char :=
  if n < 26 then Char.ofNat (65 + n)
  else if n < 52 then Char.ofNat (97 + n - 26)
  else if n < 62 then Char.ofNat (48 + n - 52)
  else if n = 62 then '+'
  else '/'

/-- Standard base64 encoding of a byte list, with padding. -/
def b64Encode : List Nat → List Char
  | [] => []
  | [a] => [b64Char (a / 4), b64Char (a % 4 * 16), '=', '=']
  | [a, b] => [b64Char (a / 4), b64Char (a % 4 * 16 + b / 16), b64Char (b % 16 * 4), '=']
  | a :: b :: c :: rest =>
    b64Char (a / 4) :: b64Char (a % 4 * 16 + b / 16) :: b64Char (b % 16 * 4 + c / 64)
      :: b64Char (c % 64) :: b64Encode rest

/-- Value of one base64 alphabet character. -/
def b64CharVal (c : Char) : Option Nat :=
  if 'A' ≤ c ∧ c ≤ 'Z' then some (c.toNat - 65)
  else if 'a' ≤ c ∧ c ≤ 'z' then some (c.toNat - 97 + 26)
  else if '0' ≤ c ∧ c ≤ '9' then some (c.toNat - 48 + 52)
  else if c = '+' then some 62
  else if c = '/' then some 63
  else none

/-- Standard base64 decoding of a character list with padding. -/
def b64Decode : List Char → Option (List Nat)
  | [] => some []
  | [a, b, '=', '='] => do
    let x ← b64CharVal a
    let y ← b64CharVal b
    pure [x * 4 + y / 16]
  | [a, b, c, '='] => do
    let x ← b64CharVal a
    let y ← b64CharVal b
    let z ← b64CharVal c
    pure [x * 4 + y / 16, y % 16 * 16 + z / 4]
  | a :: b :: c :: d :: rest => do
    let x ← b64CharVal a
    let y ← b64CharVal b
    let z ← b64CharVal c
    let w ← b64CharVal d
    let tail ← b64Decode rest
    pure ((x * 4 + y / 16) :: (y % 16 * 16 + z / 4) :: (z % 4 * 64 + w) :: tail)
  | _ => none

/-! ### The LDIF writer (`ldif.LDIFWriter`, an external collaborator) -/

/-- Modelled from the spec: one written attribute line — plain
`attr: value` when the value is safe, `attr:: base64` otherwise (§4.1).
Line folding of long lines, which the standard permits and `from_ldif`
undoes, is not performed. -/
def attrLine (k v : String) : String :=
  if safeString v then k ++ ": " ++ v
  else k ++ ":: " ++ ⟨b64Encode (utf8Bytes v)⟩

/-- Modelled from the spec: the lines of one record's LDIF block — the
`dn` line first, then every attribute's values in record order. -/
def recLines (d : String) (attrs : List (String × List String)) : List String :=
  attrLine "dn" d :: attrs.flatMap (fun kv => kv.2.map (attrLine kv.1))

/-- Concatenation of a list of strings. -/
def concatStr : List String → String
  | [] => ""
  | s :: ss => s ++ concatStr ss

/-- Lines joined with a terminating newline after each. -/
def blockText : List String → String
  | [] => ""
  | l :: ls => l ++ "\n" ++ blockText ls

/-- The pre-processing loop over the whole record list (lines 169–192):
every record is validated and processed in order, the first failure
aborting the operation. -/
def processAll : List PyVal → Except ToLdifErr (List (String × List (String × List String)))
  | [] => .ok []
  | r :: rest =>
    match processRecord r with
    | .error e => .error e
    | .ok dr => (processAll rest).map (fun t => dr :: t)

/-- Models `to_ldif(data)`: validate and pre-process every record (lines
165–192), then emit each record's block followed by the blank separator
line (lines 195–202; the generation phase itself cannot fail in this
model, matching the writer on the values the validation admits). -/
def to_ldif (data : PyVal) : Except ToLdifErr String :=
  match data with
  | .list records =>
    (processAll records).map (fun recs =>
      concatStr (recs.map (fun dr => blockText (recLines dr.1 dr.2) ++ "\n")))
  | _ => .error .notAList

/-! ### The LDIF parser (`ldif.LDIFRecordList`, an external collaborator) -/

/-- Splits a list into the maximal runs of elements not satisfying `p`,
dropping the separators; `n` separators yield `n + 1` groups. -/
def splitBy {α : Type} (p : α → Bool) : List α → List (List α)
  | [] => [[]]
  | a :: as =>
    if p a then [] :: splitBy p as
    else
      match splitBy p as with
      | g :: gs => (a :: g) :: gs
      | [] => [[a]]

/-- Removes leading and trailing spaces (Python `bytes.strip` restricted
to the space character, which is all the writer can produce here). -/
def stripSpaces (l : List Char) : List Char :=
  ((l.dropWhile (· == ' ')).reverse.dropWhile (· == ' ')).reverse

/-- Modelled from the spec: LDIF line unfolding — a physical line starting
with a space continues the previous line (§4.1); the leading space is
removed and the rest appended. -/
def unfoldAux : Nat → List (List Char) → List (List Char)
  | _, [] => []
  | _, [l] => [l]
  | 0, ls => ls
  | fuel + 1, l1 :: l2 :: rest =>
    if l2.head? = some ' ' then unfoldAux fuel ((l1 ++ l2.tail) :: rest)
    else l1 :: unfoldAux fuel (l2 :: rest)

/-- The unfolding pass with sufficient fuel (each step removes a line). -/
def unfoldLines (ls : List (List Char)) : List (List Char) :=
  unfoldAux ls.length ls

/-- Modelled from the spec: comment lines start with `#` and are ignored
(§4.1). -/
def dropComments (ls : List (List Char)) : List (List Char) :=
  ls.filter fun l => if l.head? = some '#' then false else true

/-- Parse failure of `from_ldif`, an `AnsibleFilterError` in the source. -/
inductive FromLdifErr where
  | parseFailure
deriving DecidableEq

/-- Modelled from the spec: parsing one logical line — attribute name up
to the first colon; `::` introduces a base64 value (decoded bytes run
through `_try_utf8`); otherwise the value is the plain rest with
surrounding spaces stripped. -/
def parseLine (l : List Char) : Except FromLdifErr (String × PyVal) :=
  match splitFirst ':' l with
  | none => .error .parseFailure
  | some (attr, rest) =>
    match rest with
    | ':' :: r2 =>
      match b64Decode (stripSpaces r2) with
      | some bs => .ok (⟨attr⟩, _try_utf8 bs)
      | none => .error .parseFailure
    | _ => .ok (⟨attr⟩, .str ⟨stripSpaces rest⟩)

/-- Appends a value to an attribute's value list, creating the attribute
at the end on first sight (the parser's record dictionary). -/
def addPair (m : List (String × List PyVal)) (k : String) (v : PyVal) :
    List (String × List PyVal) :=
  if m.any (fun kv => kv.1 == k) then
    m.map (fun kv => if kv.1 == k then (kv.1, kv.2 ++ [v]) else kv)
  else m ++ [(k, [v])]

/-- Python dictionary assignment `m[k] = v`: overwrite in place when the
key exists, append otherwise. -/
def dictInsert (m : List (PyVal × PyVal)) (k v : PyVal) : List (PyVal × PyVal) :=
  if m.any (fun kv => kv.1 == k) then
    m.map (fun kv => if kv.1 == k then (kv.1, v) else kv)
  else m ++ [(k, v)]

/-- Parses every line of an entry in order, the first failure aborting. -/
def parseLines : List (List Char) → Except FromLdifErr (List (String × PyVal))
  | [] => .ok []
  | l :: rest =>
    match parseLine l with
    | .error e => .error e
    | .ok p => (parseLines rest).map (p :: ·)

/-- The record `from_ldif` shapes from a parsed `dn` and the attribute
lines' pairs (lines 141–145): values grouped per attribute in first-seen
order, then a dictionary with the `dn` key first and every attribute
lower-cased with its values as a list. -/
def buildRecord (d : String) (pairs : List (String × PyVal)) : PyVal :=
  .dict ((pairs.foldl (fun m kv => addPair m kv.1 kv.2) []).foldl
    (fun m kv => dictInsert m (.str (lowerStr kv.1)) (.list kv.2))
    [(.str "dn", .str d)])

/-- Parsing of an entry's attribute lines once the `dn` line is read: a
second `dn` attribute is refused, otherwise the record is built. -/
def parseEntryRest (d : String) (rest : List (List Char)) :
    Except FromLdifErr (Option PyVal) :=
  match parseLines rest with
  | .error e => .error e
  | .ok pairs =>
    if pairs.any (fun kv => lowerStr kv.1 == "dn") then .error .parseFailure
    else .ok (some (buildRecord d pairs))

/-- Modelled from the spec: parsing of one blank-line-separated entry once
unfolded and uncommented — the first line must carry a string `dn`; a
group left empty yields no record. -/
def parseEntryBody : List (List Char) → Except FromLdifErr (Option PyVal)
  | [] => .ok none
  | first :: rest =>
    match parseLine first with
    | .error e => .error e
    | .ok (a0, v0) =>
      if a0 = "dn" then
        match v0 with
        | .str d => parseEntryRest d rest
        | _ => .error .parseFailure
      else .error .parseFailure

/-- Modelled from the spec: parsing of one blank-line-separated entry —
unfold continuations, drop comments, and parse the logical lines. -/
def parseEntry (ls : List (List Char)) : Except FromLdifErr (Option PyVal) :=
  parseEntryBody (dropComments (unfoldLines ls))

/-- Parses every blank-line-separated group, keeping the records of the
groups that produce one; the first failure aborts the whole parse. -/
def parseGroups : List (List (List Char)) → Except FromLdifErr (List PyVal)
  | [] => .ok []
  | g :: gs =>
    match parseEntry g with
    | .error e => .error e
    | .ok none => parseGroups gs
    | .ok (some r) => (parseGroups gs).map (r :: ·)

/-- Models `from_ldif(ldif_data)`: split the text into lines, group them
at blank lines, and parse every group (lines 129–146); any malformed
group aborts the whole parse. -/
def from_ldif (text : String) : Except FromLdifErr (List PyVal) :=
  parseGroups (splitBy (fun l => l == ([] : List Char))
    (splitBy (fun c => c == '\n') text.data))

/-! ### Shapes used by the claim statements -/

/-- Recognizes group 1 of `_WEIGHTED_ATTR`: an optional minus sign
followed by at least one decimal digit. -/
def signedDigits (w : String) : Bool :=
  match w.data with
  | '-' :: ds => !ds.isEmpty && ds.all (·.isDigit)
  | ds => !ds.isEmpty && ds.all (·.isDigit)

/-- The record shape `to_ldif`'s validation pass accepts (lines 170–191):
a dictionary with a string under the `dn` key whose remaining entries have
string keys and string, integer or list values. -/
def validValue : PyVal → Bool
  | .str _ => true
  | .int _ => true
  | .list _ => true
  | _ => false

/-- One entry passes the per-entry checks of `to_ldif`: either it is the
`dn` entry (skipped) or its key is a string and its value of an accepted
type. -/
def validEntry : PyVal × PyVal → Bool
  | (k, v) =>
    (k == PyVal.str "dn") ||
      (match k with
       | .str _ => validValue v
       | _ => false)

/-- A record `to_ldif` accepts. -/
def validRecord : PyVal → Bool
  | .dict entries =>
    (match (entries.find? (fun kv => kv.1 == PyVal.str "dn")).map Prod.snd with
     | some (.str _) => true
     | _ => false)
    && entries.all validEntry
  | _ => false

/-- A value every element of which round-trips through one LDIF line: a
safe string, an integer, or a non-empty list of safe strings and
integers. -/
def validRTVal : PyVal → Bool
  | .str s => safeString s
  | .int _ => true
  | .list es =>
    !es.isEmpty && es.all (fun e =>
      match e with
      | .str s => safeString s
      | .int _ => true
      | _ => false)
  | _ => false

/-- An attribute key that survives the round trip: already lower-case,
free of colon and newline, and not starting a comment or a continuation
line; the `dn` key is handled separately. -/
def validRTKey (ks : String) : Bool :=
  decide (lowerStr ks = ks) && decide (ks ≠ "dn")
  && decide (':' ∉ ks.data) && decide ('\n' ∉ ks.data)
  && decide (ks.data.head? ≠ some ' ') && decide (ks.data.head? ≠ some '#')

/-- One record entry that survives the round trip. -/
def validRTEntry : PyVal × PyVal → Bool
  | (k, v) =>
    (k == PyVal.str "dn") ||
      (match k with
       | .str ks => validRTKey ks && validRTVal v
       | _ => false)

/-- A record that survives the round trip: a dictionary with distinct
keys, a safe string `dn`, and round-trippable entries. -/
def validRTRec : PyVal → Bool
  | .dict entries =>
    decide (entries.map Prod.fst).Nodup
    && (match (entries.find? (fun kv => kv.1 == PyVal.str "dn")).map Prod.snd with
        | some (.str d) => safeString d
        | _ => false)
    && entries.all validRTEntry
  | _ => false

/-- Value list a round trip reproduces for one attribute value: scalars
become one-element lists, integers their decimal form, list elements their
`str()` forms. -/
def rtValueList : PyVal → List PyVal
  | .str s => [.str s]
  | .int n => [.str (intStr n)]
  | .list es => es.map (fun e => .str (pyStr e))
  | _ => []

/-- Record produced by parsing back a serialized record: the `dn` entry
first, then every non-`dn` entry in order with its value normalized to a
list. -/
def expectedRT (r : PyVal) : PyVal :=
  match r with
  | .dict entries =>
    match (entries.find? (fun kv => kv.1 == PyVal.str "dn")).map Prod.snd with
    | some dnv =>
      .dict ((PyVal.str "dn", dnv) ::
        (entries.filter (fun kv => !(kv.1 == PyVal.str "dn"))).map
          (fun kv => (kv.1, PyVal.list (rtValueList kv.2))))
    | none => r
  | _ => r

/-- The processed attribute list `to_ldif` computes for a record that
passes validation: the `dn` entry skipped, scalars boxed into one-element
lists, list values stringified elementwise (invalid entries, which cannot
occur in a validated record, contribute nothing). -/
def procAttrs : List (PyVal × PyVal) → List (String × List String)
  | [] => []
  | (k, v) :: rest =>
    if k = PyVal.str "dn" then procAttrs rest
    else
      match k, v with
      | .str ks, .str s => (ks, [s]) :: procAttrs rest
      | .str ks, .int n => (ks, [intStr n]) :: procAttrs rest
      | .str ks, .list es => (ks, es.map pyStr) :: procAttrs rest
      | _, _ => procAttrs rest

/-- The `(dn, processed attributes)` pair `processRecord` yields on a
record that passes round-trip validation. -/
def rtProc (r : PyVal) : String × List (String × List String) :=
  match r with
  | .dict entries =>
    match (entries.find? (fun kv => kv.1 == PyVal.str "dn")).map Prod.snd with
    | some (.str d) => (d, procAttrs entries)
    | _ => ("", [])
  | _ => ("", [])

/-! ## Theorems -/

theorem lexLt_asymm : ∀ (a b : List Char), lexLt a b = true → lexLt b a = false
  | [], [], h => by simp [lexLt] at h
  | [], _ :: _, _ => by simp [lexLt]
  | _ :: _, [], h => by simp [lexLt] at h
  | a :: as, b :: bs, h => by
    simp only [lexLt] at h ⊢
    by_cases hab : a = b
    · subst hab
      simp only [if_pos rfl] at h ⊢
      exact lexLt_asymm as bs h
    · rw [if_neg hab] at h
      rw [if_neg (Ne.symm hab)]
      simp only [decide_eq_true_eq] at h
      simp only [decide_eq_false_iff_not]
      omega

theorem lexLt_total_eq : ∀ (a b : List Char),
    lexLt a b = false → lexLt b a = false → a = b
  | [], [], _, _ => rfl
  | [], _ :: _, h, _ => by simp [lexLt] at h
  | _ :: _, [], _, h => by simp [lexLt] at h
  | a :: as, b :: bs, h, h' => by
    simp only [lexLt] at h h'
    by_cases hab : a = b
    · subst hab
      simp only [if_pos rfl] at h h'
      rw [lexLt_total_eq as bs h h']
    · rw [if_neg hab] at h
      rw [if_neg (Ne.symm hab)] at h'
      simp only [decide_eq_false_iff_not] at h h'
      have : a.toNat = b.toNat := by omega
      exact absurd (Char.ext (UInt32.toNat.inj this)) hab

theorem strLt_asymm (a b : String) (h : strLt a b = true) : strLt b a = false :=
  lexLt_asymm a.data b.data h

theorem strLt_total_eq (a b : String) (h : strLt a b = false)
    (h' : strLt b a = false) : a = b := by
  have := lexLt_total_eq a.data b.data h h'
  cases a; cases b; exact congrArg String.mk this

theorem strLt_irrefl (a : String) : strLt a a = false := by
  have h : ∀ l : List Char, lexLt l l = false := by
    intro l
    induction l with
    | nil => rfl
    | cons c cs ih => simp [lexLt, ih]
  exact h a.data

/-- Unfolding of the comparison loop when either side is exhausted. -/
theorem dnCompareLoop_exhausted (mix : Bool) (l1 l2 : List String)
    (h : l1 = [] ∨ l2 = []) :
    dnCompareLoop mix l1 l2 = .ok ((l1.length : Int) - (l2.length : Int)) := by
  rcases h with h | h
  · subst h
    cases l2 <;> rfl
  · subst h
    cases l1 <;> rfl

/-- Unfolding of the comparison loop on a component pair whose iteration
decides or fails. -/
theorem dnCompareLoop_cons (mix : Bool) (s1 s2 : String) (r1 r2 : List String) :
    dnCompareLoop mix (s1 :: r1) (s2 :: r2) =
      match compOne mix s1 s2 with
      | .error e => .error e
      | .ok (some r) => .ok r
      | .ok none => dnCompareLoop mix r1 r2 := rfl

/-- Records with textually identical DNs compare equal at once. -/
theorem _dn_compare_eq_dn (a b : SRecord) (mix : Bool) (h : a.dn = b.dn) :
    _dn_compare a b mix = .ok 0 := by
  simp [_dn_compare, h]

/-- The sort succeeds when every ordered pair of records compares. -/
theorem ldif_sort_ok_of_all_ok (data : List SRecord) (mix : Bool)
    (h : ∀ a ∈ data, ∀ b ∈ data, (_dn_compare a b mix).isOk = true) :
    ldif_sort data mix = .ok (pySorted (sortLt mix) data) := by
  have hnone : firstCmpError data mix = none := by
    rw [firstCmpError]
    rw [List.findSome?_eq_none_iff]
    intro a ha
    rw [List.findSome?_eq_none_iff]
    intro b hb
    rcases hc : _dn_compare a b mix with e | v
    · have := h a ha b hb
      rw [hc] at this
      simp [Except.isOk, Except.toBool] at this
    · simp
  rw [ldif_sort, hnone]

/-- The sort fails when some ordered pair of records fails to compare. -/
theorem ldif_sort_error_of_pair (data : List SRecord) (mix : Bool)
    (a b : SRecord) (e : CmpErr) (ha : a ∈ data) (hb : b ∈ data)
    (hc : _dn_compare a b mix = .error e) :
    (ldif_sort data mix).isOk = false := by
  rcases hfe : firstCmpError data mix with _ | e'
  · exfalso
    rw [firstCmpError, List.findSome?_eq_none_iff] at hfe
    have := hfe a ha
    rw [List.findSome?_eq_none_iff] at this
    have := this b hb
    rw [hc] at this
    simp at this
  · rw [ldif_sort, hfe]
    rfl

/-- Claim C1 as stated is false: with `allow_mixed_weighting` enabled the
mixed comparison of `ou={0}a,dc=x` against `ou=z,dc=x` does not strip the
weight prefix and does not order the weighted record first — it compares
the raw values and returns 1. -/
theorem C1_counterexample :
    _dn_compare ⟨"ou={0}a,dc=x", 0⟩ ⟨"ou=z,dc=x", 1⟩ true = .ok 1
    ∧ _dn_compare ⟨"ou={0}a,dc=x", 0⟩ ⟨"ou=z,dc=x", 1⟩ true ≠ .ok (-1) := by
  constructor
  · rfl
  · decide

/-- C1 (amended): with `allowMixedWeighting` true, when exactly one of the
two values is weighted the comparison falls through to comparing the two
raw values — neither side's weight prefix is stripped; in the example the
weighted record therefore sorts last (`ou={0}a` is greater than `ou=z`
because the code point of the opening brace exceeds that of `z`). -/
theorem C1_mixed_weighting_compares_raw :
    (∀ v1 v2 : String, (weightedAttrMatch v1).isSome ≠ (weightedAttrMatch v2).isSome →
        weightStep true v1 v2 = .ok (none, v1, v2))
    ∧ _dn_compare ⟨"ou={0}a,dc=x", 0⟩ ⟨"ou=z,dc=x", 1⟩ true = .ok 1 := by
  constructor
  · intro v1 v2 h
    rw [weightStep]
    rcases h1 : weightedAttrMatch v1 with _ | ⟨w1, s1⟩ <;>
      rcases h2 : weightedAttrMatch v2 with _ | ⟨w2, s2⟩ <;> simp_all
  · rfl

/-- Witness for C1's amended theorem at a concrete mixed pair. -/
theorem C1_witness :
    weightStep true "{0}a" "z" = .ok (none, "{0}a", "z") :=
  C1_mixed_weighting_compares_raw.1 "{0}a" "z" (by decide)

/-- Claim C3 as stated is false: the weights `{01}` and `{1}` are equal as
integers but textually distinct, and the comparison returns equal
immediately instead of falling through to the remainders `a` and `z`
(which would have ordered the records). -/
theorem C3_counterexample :
    _dn_compare ⟨"ou={01}a,dc=x", 0⟩ ⟨"ou={1}z,dc=x", 1⟩ false = .ok 0
    ∧ strLt "a" "z" = true
    ∧ _dn_compare ⟨"ou={01}a,dc=x", 0⟩ ⟨"ou={1}z,dc=x", 1⟩ false ≠ .ok (-1) := by
  refine ⟨rfl, rfl, by decide⟩

/-- C3 (amended): with both values weighted, the comparison of the two
weight strings decides — when they differ textually the comparison stops
at once with `int(w1) - int(w2)` (which is negative exactly when the first
weight is numerically smaller, and zero, meaning "equal", when the weights
are numerically equal but textually distinct); only textually equal
weights fall through to the remainder comparison. -/
theorem C3_weight_text_decides :
    (∀ (mix : Bool) (v1 v2 w1 s1 w2 s2 : String),
        weightedAttrMatch v1 = some (w1, s1) → weightedAttrMatch v2 = some (w2, s2) →
        (w1 ≠ w2 → weightStep mix v1 v2 = .ok (some (strToInt w1 - strToInt w2), s1, s2))
        ∧ (w1 = w2 → weightStep mix v1 v2 = .ok (none, s1, s2)))
    ∧ (∀ mix, _dn_compare ⟨"ou={1}b,dc=x", 0⟩ ⟨"ou={0}a,dc=x", 1⟩ mix = .ok 1)
    ∧ _dn_compare ⟨"ou={5}x", 0⟩ ⟨"ou={5}y", 1⟩ false = .ok (-1) := by
  refine ⟨?_, fun mix => rfl, rfl⟩
  intro mix v1 v2 w1 s1 w2 s2 h1 h2
  constructor
  · intro hne
    simp [weightStep, h1, h2, hne]
  · intro heq
    subst heq
    simp [weightStep, h1, h2]

/-- Witness for C3's amended theorem: textually distinct, numerically
equal weights return `some 0` (deciding "equal") without touching the
remainders. -/
theorem C3_witness :
    weightStep false "{01}a" "{1}b" = .ok (some (strToInt "01" - strToInt "1"), "a", "b") :=
  (C3_weight_text_decides.1 false "{01}a" "{1}b" "01" "a" "1" "b" (by decide) (by decide)).1
    (by decide)

/-- Claim C4 as stated is false on two counts: two records with the same
multi-valued-RDN DN string compare equal through the fast path without
failing, and a multi-valued RDN in a component the comparison never
reaches (here the leaf, because the root components already differ) does
not fail either — the sort then succeeds. -/
theorem C4_counterexample :
    _dn_compare ⟨"cn=a+ou=b,dc=x", 0⟩ ⟨"cn=a+ou=b,dc=x", 1⟩ true = .ok 0
    ∧ _dn_compare ⟨"cn=a+ou=b,dc=x", 0⟩ ⟨"ou=p,dc=y", 1⟩ true = .ok (-1)
    ∧ ldif_sort [⟨"cn=a+ou=b,dc=x", 0⟩, ⟨"ou=p,dc=y", 1⟩] true
        = .ok [⟨"cn=a+ou=b,dc=x", 0⟩, ⟨"ou=p,dc=y", 1⟩] := by
  refine ⟨rfl, rfl, by decide⟩

/-- C4 (amended): whenever a comparison actually examines a component pair
in which either RDN is multi-valued — which requires the DN strings to
differ and every component to its right to have compared equal — it fails
with the structure error regardless of `allowMixedWeighting`, and any such
failure makes the whole sort fail. -/
theorem C4_multivalued_rdn_fails_when_examined :
    (∀ (mix : Bool) (s1 s2 : String) (r1 r2 : List String),
        (str2dn_rdn s1).length ≠ 1 ∨ (str2dn_rdn s2).length ≠ 1 →
        dnCompareLoop mix (s1 :: r1) (s2 :: r2) = .error .multiValuedRDN)
    ∧ (∀ (data : List SRecord) (mix : Bool) (a b : SRecord) (e : CmpErr),
        a ∈ data → b ∈ data → _dn_compare a b mix = .error e →
        (ldif_sort data mix).isOk = false)
    ∧ (∀ mix, _dn_compare ⟨"cn=a+ou=b", 0⟩ ⟨"cn=z", 1⟩ mix = .error .multiValuedRDN) := by
  refine ⟨?_, ?_, fun mix => rfl⟩
  · intro mix s1 s2 r1 r2 h
    rw [dnCompareLoop_cons]
    rw [compOne]
    simp only [if_pos h]
  · intro data mix a b e ha hb hc
    exact ldif_sort_error_of_pair data mix a b e ha hb hc

/-- Witness for C4's amended theorem at a concrete multi-valued pair. -/
theorem C4_witness :
    dnCompareLoop true ["cn=a+ou=b"] ["cn=z"] = .error .multiValuedRDN :=
  C4_multivalued_rdn_fails_when_examined.1 true "cn=a+ou=b" "cn=z" [] [] (by decide)

/-- Claim C5: when the paired components all compare equal and one DN runs
out of components first, the comparison returns the signed count of the
remaining components of the other side, so the shorter DN (the ancestor)
sorts first; `dc=com` sorts before `dc=example,dc=com`. -/
theorem C5_ancestor_sorts_first :
    (∀ mix, _dn_compare ⟨"dc=com", 0⟩ ⟨"dc=example,dc=com", 1⟩ mix = .ok (-1))
    ∧ (∀ (mix : Bool) (l1 l2 : List String), l1 = [] ∨ l2 = [] →
        dnCompareLoop mix l1 l2 = .ok ((l1.length : Int) - (l2.length : Int)))
    ∧ (∀ (mix : Bool) (l2 : List String), l2 ≠ [] →
        ∃ r, dnCompareLoop mix [] l2 = .ok r ∧ r < 0) := by
  refine ⟨fun mix => rfl, dnCompareLoop_exhausted, ?_⟩
  intro mix l2 h
  refine ⟨(0 : Int) - (l2.length : Int), dnCompareLoop_exhausted mix [] l2 (Or.inl rfl), ?_⟩
  have : 0 < l2.length := List.length_pos.mpr h
  omega

/-- Witness for C5 at the concrete ancestor pair and a concrete exhausted
state. -/
theorem C5_witness :
    dnCompareLoop false [] ["dc=x"] = .ok ((0 : Int) - (1 : Int))
    ∧ ∃ r, dnCompareLoop false [] ["dc=x"] = .ok r ∧ r < 0 :=
  ⟨C5_ancestor_sorts_first.2.1 false [] ["dc=x"] (Or.inl rfl),
   C5_ancestor_sorts_first.2.2 false ["dc=x"] (by decide)⟩

/-- Claim C10: textually identical DNs compare equal immediately and never
raise, whatever their content; consequently the sort always succeeds on
lists of fewer than two records and on lists whose records all share one
DN string. -/
theorem C10_identical_dn_never_fails :
    (∀ (a b : SRecord) (mix : Bool), a.dn = b.dn → _dn_compare a b mix = .ok 0)
    ∧ (∀ (mix : Bool) (l : List SRecord), l.length ≤ 1 → (ldif_sort l mix).isOk = true)
    ∧ (∀ (mix : Bool) (d : String) (l : List SRecord), (∀ r ∈ l, r.dn = d) →
        (ldif_sort l mix).isOk = true) := by
  have hall : ∀ (mix : Bool) (d : String) (l : List SRecord), (∀ r ∈ l, r.dn = d) →
      (ldif_sort l mix).isOk = true := by
    intro mix d l h
    rw [ldif_sort_ok_of_all_ok l mix ?_]
    · rfl
    · intro a ha b hb
      rw [_dn_compare_eq_dn a b mix ((h a ha).trans (h b hb).symm)]
      rfl
  refine ⟨fun a b mix h => _dn_compare_eq_dn a b mix h, ?_, hall⟩
  intro mix l h
  match l with
  | [] => rfl
  | [x] => exact hall mix x.dn [x] (by simp)
  | _ :: _ :: _ => simp at h

/-- Witness for C10 at a concrete multi-valued, mixed-weighted DN shared
by two records, and at a concrete one-record list. -/
theorem C10_witness :
    _dn_compare ⟨"cn=a+ou={1}b,dc=x", 3⟩ ⟨"cn=a+ou={1}b,dc=x", 7⟩ false = .ok 0
    ∧ (ldif_sort [⟨"cn=a+ou=b", 5⟩] true).isOk = true
    ∧ (ldif_sort [⟨"ou={1}x", 0⟩, ⟨"ou={1}x", 1⟩, ⟨"ou={1}x", 2⟩] false).isOk = true :=
  ⟨C10_identical_dn_never_fails.1 _ _ false rfl,
   C10_identical_dn_never_fails.2.1 true [⟨"cn=a+ou=b", 5⟩] (by decide),
   C10_identical_dn_never_fails.2.2 false "ou={1}x" _ (by decide)⟩

theorem parseDigits_sound : ∀ (l ds rest : List Char), parseDigits l = some (ds, rest) →
    l = ds ++ rest ∧ ds ≠ [] ∧ ds.all (·.isDigit) = true := by
  intro l
  induction l with
  | nil => intro ds rest h; simp [parseDigits] at h
  | cons c cs ih =>
    intro ds rest h
    rw [parseDigits] at h
    by_cases hc : c.isDigit
    · rw [if_pos hc] at h
      rcases hp : parseDigits cs with _ | ⟨ds', rest'⟩
      · rw [hp] at h
        simp only [Option.some.injEq, Prod.mk.injEq] at h
        obtain ⟨h1, h2⟩ := h
        subst h1
        subst h2
        simp [hc]
      · rw [hp] at h
        simp only [Option.some.injEq, Prod.mk.injEq] at h
        obtain ⟨h1, h2⟩ := h
        subst h1
        subst h2
        obtain ⟨e1, e2, e3⟩ := ih ds' rest' hp
        subst e1
        simp [hc, e3]
    · rw [if_neg hc] at h
      exact absurd h (by simp)

theorem parseDigits_complete : ∀ (ds rest : List Char), ds ≠ [] → ds.all (·.isDigit) = true →
    (∀ c, rest.head? = some c → c.isDigit = false) →
    parseDigits (ds ++ rest) = some (ds, rest) := by
  intro ds
  induction ds with
  | nil => intro rest h; exact absurd rfl h
  | cons c cs ih =>
    intro rest _ hall hrest
    simp only [List.all_cons, Bool.and_eq_true] at hall
    obtain ⟨hc, hcs⟩ := hall
    rw [List.cons_append, parseDigits, if_pos hc]
    by_cases hcs0 : cs = []
    · subst hcs0
      simp only [List.nil_append]
      cases rest with
      | nil => rfl
      | cons r rs =>
        have hr : r.isDigit = false := hrest r rfl
        rw [parseDigits, if_neg (by simp [hr])]
    · rw [ih rest hcs0 hcs hrest]

theorem weightedTail_sound (sign l : List Char) (w r : String)
    (h : weightedTail sign l = some (w, r)) :
    ∃ ds, l = ds ++ '}' :: r.data ∧ w.data = sign ++ ds ∧ ds ≠ [] ∧
      ds.all (·.isDigit) = true ∧ r.data ≠ [] ∧ '\n' ∉ r.data := by
  rw [weightedTail] at h
  split at h
  case h_1 ds rem hp =>
    split at h
    · exact absurd h (by simp)
    case isFalse hcond =>
      simp only [Option.some.injEq, Prod.mk.injEq] at h
      obtain ⟨hw, hr⟩ := h
      obtain ⟨e1, e2, e3⟩ := parseDigits_sound l ds ('}' :: rem) hp
      push_neg at hcond
      refine ⟨ds, ?_, ?_, e2, e3, ?_, ?_⟩
      · rw [e1, ← hr]
      · rw [← hw]
      · rw [← hr]; exact hcond.1
      · rw [← hr]; exact hcond.2
  case h_2 => exact absurd h (by simp)

theorem weightedTail_complete (sign ds : List Char) (r : String)
    (hds : ds ≠ []) (hall : ds.all (·.isDigit) = true)
    (hr : r.data ≠ []) (hn : '\n' ∉ r.data) :
    weightedTail sign (ds ++ '}' :: r.data) = some (⟨sign ++ ds⟩, ⟨r.data⟩) := by
  rw [weightedTail]
  rw [parseDigits_complete ds ('}' :: r.data) hds hall
    (by intro c hcm; injection hcm with hcm; rw [← hcm]; rfl)]
  show (if r.data = [] ∨ '\n' ∈ r.data then none
    else some ((⟨sign ++ ds⟩ : String), (⟨r.data⟩ : String))) = _
  rw [if_neg (by push_neg; exact ⟨hr, hn⟩)]

theorem weightedAttrMatch_sound (s w r : String)
    (h : weightedAttrMatch s = some (w, r)) :
    s.data = '{' :: w.data ++ '}' :: r.data ∧ signedDigits w = true ∧
      r.data ≠ [] ∧ '\n' ∉ r.data := by
  rw [weightedAttrMatch] at h
  split at h
  · rename_i rest heq
    obtain ⟨ds, e1, e2, e3, e4, e5, e6⟩ := weightedTail_sound ['-'] rest w r h
    refine ⟨?_, ?_, e5, e6⟩
    · rw [heq, e1, e2]
      rfl
    · rw [signedDigits, e2]
      simp [e3, e4]
  · rename_i rest hnedash heq
    obtain ⟨ds, e1, e2, e3, e4, e5, e6⟩ := weightedTail_sound [] rest w r h
    simp only [List.nil_append] at e2
    refine ⟨?_, ?_, e5, e6⟩
    · rw [heq, e1, e2]
      rfl
    · rw [signedDigits, e2]
      cases ds with
      | nil => exact absurd rfl e3
      | cons d dtl =>
        have hd : d.isDigit = true := by
          have := e4
          simp only [List.all_cons, Bool.and_eq_true] at this
          exact this.1
        have : d ≠ '-' := by
          intro hdd
          rw [hdd] at hd
          exact absurd hd (by decide)
        simp [this, e4]
  · rename_i hne
    exact absurd h (by simp)

theorem signedDigits_cases (w : String) (hw : signedDigits w = true) :
    (∃ ds, w.data = '-' :: ds ∧ ds ≠ [] ∧ ds.all (·.isDigit) = true)
    ∨ (w.data ≠ [] ∧ w.data.all (·.isDigit) = true ∧
        ∀ tl, w.data ≠ '-' :: tl) := by
  rw [signedDigits] at hw
  split at hw
  · rename_i ds heq
    simp only [Bool.and_eq_true, Bool.not_eq_true'] at hw
    refine Or.inl ⟨ds, heq, ?_, hw.2⟩
    intro h0
    rw [h0] at hw
    simp at hw
  · rename_i hnedash
    simp only [Bool.and_eq_true, Bool.not_eq_true'] at hw
    refine Or.inr ⟨?_, hw.2, fun tl htl => hnedash tl htl⟩
    intro h0
    rw [h0] at hw
    simp at hw

theorem weightedAttrMatch_complete (w r : String) (hw : signedDigits w = true)
    (hr : r.data ≠ []) (hn : '\n' ∉ r.data) :
    weightedAttrMatch ⟨'{' :: w.data ++ '}' :: r.data⟩ = some (w, r) := by
  rcases signedDigits_cases w hw with ⟨ds, hwd, hds, hall⟩ | ⟨hne0, hall, hnedash⟩
  · have step : weightedAttrMatch ⟨'{' :: w.data ++ '}' :: r.data⟩
        = weightedTail ['-'] (ds ++ '}' :: r.data) := by
      rw [hwd]
      rfl
    rw [step, weightedTail_complete ['-'] ds r hds hall hr hn]
    show some ((⟨'-' :: ds⟩ : String), (⟨r.data⟩ : String)) = some (w, r)
    have hww : (⟨'-' :: ds⟩ : String) = w := by
      rw [← hwd]
    have hrr : (⟨r.data⟩ : String) = r := rfl
    rw [hww, hrr]
  · rw [weightedAttrMatch]
    split
    · rename_i rest heq
      exfalso
      rcases hwdata : w.data with _ | ⟨c, cs⟩
      · exact hne0 hwdata
      · rw [hwdata] at heq
        simp only [List.cons_append, List.cons.injEq] at heq
        apply hnedash cs
        rw [hwdata, heq.2.1]
    · rename_i rest' hnd heq
      have heq2 : '{' :: (w.data ++ '}' :: r.data) = '{' :: rest' := heq
      have heq' : w.data ++ '}' :: r.data = rest' := by
        injection heq2
      cases heq'
      rw [weightedTail_complete [] w.data r hne0 hall hr hn]
      show some ((⟨w.data⟩ : String), (⟨r.data⟩ : String)) = some (w, r)
      rfl
    · rename_i h1 h2
      exact absurd rfl (h2 (w.data ++ '}' :: r.data))

/-- Claim C2 as stated is false at its third example: group 2 of the
pattern is `(.+)`, which needs at least one character, so `"{3}"` does not
match — `extractWeight` reports no weight and leaves the string
unchanged. -/
theorem C2_counterexample :
    extractWeight "{3}" = (none, "{3}")
    ∧ (extractWeight "{3}").1 ≠ some 3 := by
  refine ⟨rfl, by decide⟩

/-- C2 (amended): `extractWeight` matches `\x7b<signed integer>\x7d<remainder>`
anchored at both ends with a non-empty remainder (which, `.` not matching
newlines under `fullmatch`, also contains no newline); the first two
examples hold as claimed and `"{3}"` does not match.  The last two
conjuncts characterize the match exactly. -/
theorem C2_weight_pattern :
    extractWeight "{-3}ou=People" = (some (-3), "ou=People")
    ∧ extractWeight "ou=People" = (none, "ou=People")
    ∧ extractWeight "{3}" = (none, "{3}")
    ∧ (∀ s w r : String, weightedAttrMatch s = some (w, r) →
        s.data = '{' :: w.data ++ '}' :: r.data ∧ signedDigits w = true ∧
          r.data ≠ [] ∧ '\n' ∉ r.data)
    ∧ (∀ w r : String, signedDigits w = true → r.data ≠ [] → '\n' ∉ r.data →
        weightedAttrMatch ⟨'{' :: w.data ++ '}' :: r.data⟩ = some (w, r)) :=
  ⟨rfl, rfl, rfl, weightedAttrMatch_sound, weightedAttrMatch_complete⟩

/-- Witness for C2's amended theorem at a concrete weighted value. -/
theorem C2_witness :
    weightedAttrMatch ⟨'{' :: "-7".data ++ '}' :: "ou=x".data⟩ = some ("-7", "ou=x") :=
  C2_weight_pattern.2.2.2.2 "-7" "ou=x" (by decide) (by decide) (by decide)

theorem weightStep_swap (mix : Bool) (v1 v2 : String) :
    weightStep mix v2 v1 =
      match weightStep mix v1 v2 with
      | .error e => .error e
      | .ok (o, x, y) => .ok (o.map (fun r => -r), y, x) := by
  rw [weightStep, weightStep]
  rcases h1 : weightedAttrMatch v1 with _ | ⟨w1, s1⟩ <;>
    rcases h2 : weightedAttrMatch v2 with _ | ⟨w2, s2⟩
  · simp
  · cases mix <;> simp
  · cases mix <;> simp
  · by_cases hw : w1 = w2
    · subst hw
      simp
    · simp [hw, Ne.symm hw]

theorem compOne_swap (mix : Bool) (s1 s2 : String) :
    compOne mix s2 s1 =
      match compOne mix s1 s2 with
      | .error e => .error e
      | .ok o => .ok (o.map (fun r => -r)) := by
  simp only [compOne]
  by_cases hm : (str2dn_rdn s1).length ≠ 1 ∨ (str2dn_rdn s2).length ≠ 1
  · rw [if_pos (Or.symm hm), if_pos hm]
  · rw [if_neg (fun h => hm (Or.symm h)), if_neg hm]
    by_cases hlt : strLt (_rdn_av (str2dn_rdn s1)).1 (_rdn_av (str2dn_rdn s2)).1 = true
    · have h2 := strLt_asymm _ _ hlt
      rw [if_neg (by simp [h2]), if_pos hlt, if_pos hlt]
      simp
    · by_cases hgt : strLt (_rdn_av (str2dn_rdn s2)).1 (_rdn_av (str2dn_rdn s1)).1 = true
      · rw [if_pos hgt, if_neg (by simp [hlt]), if_pos hgt]
        simp
      · rw [if_neg (by simp [hgt]), if_neg (by simp [hlt]),
          if_neg (by simp [hlt]), if_neg (by simp [hgt])]
        rw [weightStep_swap]
        rcases hws : weightStep mix (_rdn_av (str2dn_rdn s1)).2 (_rdn_av (str2dn_rdn s2)).2
          with e | ⟨o, x, y⟩
        · simp
        · rcases o with _ | rr
          · simp only [Option.map]
            by_cases hxy : strLt x y = true
            · have h2 := strLt_asymm _ _ hxy
              rw [if_neg (by simp [h2]), if_pos hxy, if_pos hxy]
              simp
            · by_cases hyx : strLt y x = true
              · rw [if_pos hyx, if_neg (by simp [hxy]), if_pos hyx]
              · rw [if_neg (by simp [hyx]), if_neg (by simp [hxy]),
                  if_neg (by simp [hxy]), if_neg (by simp [hyx])]
          · simp

theorem dnCompareLoop_swap (mix : Bool) : ∀ l1 l2 : List String,
    dnCompareLoop mix l2 l1 =
      match dnCompareLoop mix l1 l2 with
      | .error e => .error e
      | .ok r => .ok (-r)
  | s1 :: r1, s2 :: r2 => by
    rw [dnCompareLoop_cons, dnCompareLoop_cons, compOne_swap]
    rcases h : compOne mix s1 s2 with e | o
    · simp
    · rcases o with _ | rr
      · simp only [Option.map]
        exact dnCompareLoop_swap mix r1 r2
      · simp
  | [], l2 => by
    rw [dnCompareLoop_exhausted mix [] l2 (Or.inl rfl),
      dnCompareLoop_exhausted mix l2 [] (Or.inr rfl)]
    simp
  | l1, [] => by
    rw [dnCompareLoop_exhausted mix [] l1 (Or.inl rfl),
      dnCompareLoop_exhausted mix l1 [] (Or.inr rfl)]
    simp

theorem _dn_compare_swap (a b : SRecord) (mix : Bool) :
    _dn_compare b a mix =
      match _dn_compare a b mix with
      | .error e => .error e
      | .ok r => .ok (-r) := by
  rw [_dn_compare, _dn_compare]
  by_cases h : a.dn = b.dn
  · rw [if_pos h, if_pos h.symm]
    rfl
  · rw [if_neg h, if_neg (fun h' => h h'.symm)]
    exact dnCompareLoop_swap mix _ _

theorem cmpKey_neg (mix : Bool) (a b : SRecord) :
    cmpKey mix b a = -(cmpKey mix a b) := by
  rw [cmpKey, cmpKey, _dn_compare_swap]
  rcases h : _dn_compare a b mix with e | r
  · simp [Except.toOption]
  · simp [Except.toOption]

/-- Claim C8 as stated is false: comparison is not transitive.  The weights
`{01}` and `{1}` are textually distinct but numerically equal, so both
mixed pairs compare equal, while the textually equal weights of the outer
pair fall through to remainders that order strictly. -/
theorem C8_counterexample :
    _dn_compare ⟨"ou={01}b", 0⟩ ⟨"ou={1}a", 1⟩ false = .ok 0
    ∧ _dn_compare ⟨"ou={1}a", 1⟩ ⟨"ou={01}a", 2⟩ false = .ok 0
    ∧ _dn_compare ⟨"ou={01}b", 0⟩ ⟨"ou={01}a", 2⟩ false = .ok 1
    ∧ ¬((1 : Int) ≤ 0) := by
  refine ⟨rfl, rfl, rfl, by decide⟩

/-- C8 (amended): the comparison is reflexive (textually identical DNs
compare equal) and antisymmetric — swapping the records exactly negates a
successful comparison's result — but it is not transitive, so it falls
short of a total order: transitivity fails when weight strings are
numerically equal yet textually distinct (see the counterexample). -/
theorem C8_reflexive_antisymmetric :
    (∀ (r : SRecord) (mix : Bool), _dn_compare r r mix = .ok 0)
    ∧ (∀ (a b : SRecord) (mix : Bool) (v : Int),
        _dn_compare a b mix = .ok v → _dn_compare b a mix = .ok (-v)) := by
  constructor
  · intro r mix
    exact _dn_compare_eq_dn r r mix rfl
  · intro a b mix v h
    rw [_dn_compare_swap, h]

/-- Witness for C8's amended theorem at a concrete ordered pair. -/
theorem C8_witness :
    _dn_compare ⟨"ou=b", 1⟩ ⟨"ou=a", 2⟩ false = .ok (-(-1 : Int)) :=
  C8_reflexive_antisymmetric.2 ⟨"ou=a", 2⟩ ⟨"ou=b", 1⟩ false (-1) (by decide)

theorem insertAt_perm (a : List SRecord) (pos : Nat) (x : SRecord) :
    (insertAt a pos x).Perm (x :: a) := by
  have h := @List.perm_middle _ x (a.take pos) (a.drop pos)
  have h2 : a.take pos ++ a.drop pos = a := List.take_append_drop pos a
  rw [insertAt]
  exact h.trans (List.Perm.of_eq (by rw [h2]))

theorem binInsertAll_perm (lt : SRecord → SRecord → Bool) :
    ∀ (rest run : List SRecord), (binInsertAll lt run rest).Perm (run ++ rest)
  | [], run => by simp [binInsertAll]
  | p :: rest, run => by
    rw [binInsertAll]
    show (binInsertAll lt (insertAt run (binSearchPos lt run p 0 run.length) p) rest).Perm _
    have ih := binInsertAll_perm lt rest (insertAt run (binSearchPos lt run p 0 run.length) p)
    refine ih.trans ?_
    have h1 := insertAt_perm run (binSearchPos lt run p 0 run.length) p
    refine (h1.append_right rest).trans ?_
    exact List.perm_middle.symm

theorem countRunAsc_append (lt : SRecord → SRecord → Bool) :
    ∀ (x : SRecord) (l : List SRecord),
      (countRunAsc lt x l).1 ++ (countRunAsc lt x l).2 = x :: l
  | _, [] => rfl
  | x, y :: rest => by
    rw [countRunAsc]
    by_cases h : lt y x = true
    · rw [if_pos h]
      rfl
    · rw [if_neg h]
      have ih := countRunAsc_append lt y rest
      simp only [List.cons_append, List.cons.injEq, true_and]
      exact ih

theorem countRunDesc_append (lt : SRecord → SRecord → Bool) :
    ∀ (x : SRecord) (l : List SRecord),
      (countRunDesc lt x l).1 ++ (countRunDesc lt x l).2 = x :: l
  | _, [] => rfl
  | x, y :: rest => by
    rw [countRunDesc]
    by_cases h : lt y x = true
    · rw [if_pos h]
      have ih := countRunDesc_append lt y rest
      simp only [List.cons_append, List.cons.injEq, true_and]
      exact ih
    · rw [if_neg h]
      rfl

theorem pySorted_perm (lt : SRecord → SRecord → Bool) (data : List SRecord) :
    (pySorted lt data).Perm data := by
  match data with
  | [] => exact List.Perm.refl _
  | [x] => exact List.Perm.refl _
  | x :: y :: rest =>
    rw [pySorted]
    by_cases h : lt y x = true
    · rw [if_pos h]
      refine (binInsertAll_perm lt _ _).trans ?_
      refine (((List.reverse_perm _)).append_right _).trans ?_
      exact List.Perm.of_eq (countRunDesc_append lt x (y :: rest))
    · rw [if_neg h]
      refine (binInsertAll_perm lt _ _).trans ?_
      exact List.Perm.of_eq (countRunAsc_append lt x (y :: rest))

theorem sortLE_not_lt (mix : Bool) (a b : SRecord) (h : sortLE mix a b = true) :
    sortLt mix b a = false := by
  rw [sortLt, cmpKey_neg]
  rw [sortLE] at h
  simp only [decide_eq_true_eq] at h
  simp only [decide_eq_false_iff_not]
  omega

theorem countRunAsc_of_pairwise (mix : Bool) :
    ∀ (x : SRecord) (l : List SRecord),
      List.Pairwise (fun a b => sortLE mix a b = true) (x :: l) →
      countRunAsc (sortLt mix) x l = (x :: l, [])
  | _, [], _ => rfl
  | x, y :: rest, h => by
    have hxy : sortLE mix x y = true := (List.pairwise_cons.mp h).1 y (by simp)
    have hlt := sortLE_not_lt mix x y hxy
    rw [countRunAsc, if_neg (by simp [hlt])]
    have ih := countRunAsc_of_pairwise mix y rest (List.pairwise_cons.mp h).2
    simp [ih]

theorem pySorted_of_pairwise (mix : Bool) (data : List SRecord)
    (h : List.Pairwise (fun a b => sortLE mix a b = true) data) :
    pySorted (sortLt mix) data = data := by
  match data with
  | [] => rfl
  | [x] => rfl
  | x :: y :: rest =>
    have hxy : sortLE mix x y = true := (List.pairwise_cons.mp h).1 y (by simp)
    have hlt := sortLE_not_lt mix x y hxy
    rw [pySorted, if_neg (by simp [hlt]), countRunAsc_of_pairwise mix x (y :: rest) h]
    rfl

/-- Claim C9 as stated is false at its stability conjunct: the comparator
is not transitive (see the weights `{01}` vs `{1}`), and the stable sort
then loses the guarantee that records comparing equal keep their input
order — in this four-record input the records tagged 2 and 3 compare
equal, 2 precedes 3 on input, yet the sort places 3 before 2 (this is
also what CPython's `sorted` produces on this input). -/
theorem C9_counterexample :
    ldif_sort [⟨"ou={1}b", 0⟩, ⟨"ou={1}a", 1⟩, ⟨"ou={01}a", 2⟩, ⟨"ou={1}a", 3⟩] false
      = .ok [⟨"ou={1}a", 1⟩, ⟨"ou={1}a", 3⟩, ⟨"ou={1}b", 0⟩, ⟨"ou={01}a", 2⟩]
    ∧ _dn_compare ⟨"ou={01}a", 2⟩ ⟨"ou={1}a", 3⟩ false = .ok 0 := by
  refine ⟨by decide, rfl⟩

/-- C9 (amended): the sort is pure and all-or-nothing — when every ordered
pair of records compares, it succeeds and returns a permutation of the
input (no record is mutated or lost); sorting an input that is already
pairwise ordered returns it unchanged; and any comparison error makes the
whole sort fail with no partial result.  The guarantee that records with
equal-comparing DNs keep their input order does not hold in general
because the comparator is not transitive. -/
theorem C9_sort_pure_atomic :
    (∀ (data : List SRecord) (mix : Bool),
        (∀ a ∈ data, ∀ b ∈ data, (_dn_compare a b mix).isOk = true) →
        ∃ out, ldif_sort data mix = .ok out ∧ out.Perm data)
    ∧ (∀ (data : List SRecord) (mix : Bool),
        (∀ a ∈ data, ∀ b ∈ data, (_dn_compare a b mix).isOk = true) →
        List.Pairwise (fun a b => sortLE mix a b = true) data →
        ldif_sort data mix = .ok data)
    ∧ (∀ (data : List SRecord) (mix : Bool) (a b : SRecord) (e : CmpErr),
        a ∈ data → b ∈ data → _dn_compare a b mix = .error e →
        (ldif_sort data mix).isOk = false) := by
  refine ⟨?_, ?_, ?_⟩
  · intro data mix h
    exact ⟨_, ldif_sort_ok_of_all_ok data mix h, pySorted_perm _ data⟩
  · intro data mix h hsort
    rw [ldif_sort_ok_of_all_ok data mix h, pySorted_of_pairwise mix data hsort]
  · intro data mix a b e ha hb hc
    exact ldif_sort_error_of_pair data mix a b e ha hb hc

/-- Witness for C9's amended theorem at concrete lists. -/
theorem C9_witness :
    (∃ out, ldif_sort [⟨"ou=b", 0⟩, ⟨"ou=a", 1⟩] false = .ok out ∧
        out.Perm [⟨"ou=b", 0⟩, ⟨"ou=a", 1⟩])
    ∧ ldif_sort [⟨"ou=a", 0⟩, ⟨"ou=b", 1⟩] false = .ok [⟨"ou=a", 0⟩, ⟨"ou=b", 1⟩]
    ∧ (ldif_sort [⟨"cn=a+ou=b", 0⟩, ⟨"cn=z", 1⟩] false).isOk = false :=
  ⟨C9_sort_pure_atomic.1 _ false (by decide),
   C9_sort_pure_atomic.2.1 _ false (by decide) (by decide),
   C9_sort_pure_atomic.2.2 _ false ⟨"cn=a+ou=b", 0⟩ ⟨"cn=z", 1⟩ .multiValuedRDN
     (by simp) (by simp) (by decide)⟩

theorem Except.isOk_map {ε α β : Type} (f : α → β) (e : Except ε α) :
    (e.map f).isOk = e.isOk := by
  rcases e with x | x <;> rfl

theorem processEntries_isOk (record : PyVal) :
    ∀ entries : List (PyVal × PyVal),
      (processEntries record entries).isOk = entries.all validEntry := by
  intro entries
  induction entries with
  | nil => rfl
  | cons kv rest ih =>
    obtain ⟨k, v⟩ := kv
    rw [List.all_cons]
    by_cases hk : k = PyVal.str "dn"
    · subst hk
      show (processEntries record rest).isOk = _
      have hv : validEntry (PyVal.str "dn", v) = true := by
        rw [validEntry]
        simp
      rw [ih, hv, Bool.true_and]
    · have hbk : (k == PyVal.str "dn") = false := by
        simp only [beq_eq_false_iff_ne]
        exact hk
      rcases k with ks | nk | bk | lk | dk | _ <;> rcases v with s | n | b | es | d | _ <;>
        simp [processEntries, validEntry, validValue, hk, hbk, ih, Except.isOk_map,
          Except.isOk, Except.toBool] <;>
        (rw [← ih]; rcases processEntries record rest with e | t <;> rfl)

theorem processRecord_isOk (r : PyVal) :
    (processRecord r).isOk = validRecord r := by
  rcases r with s | nk | bk | lk | entries | _
  · rfl
  · rfl
  · rfl
  · rfl
  · rw [processRecord, validRecord]
    rcases hf : (entries.find? (fun kv => kv.1 == PyVal.str "dn")).map Prod.snd with _ | v
    · rw [hf]
      rfl
    · rcases v with s | n | b | l | d | _
      · rw [hf, ← processEntries_isOk (PyVal.dict entries) entries]
        show ((processEntries (PyVal.dict entries) entries).map _).isOk = _
        rcases processEntries (PyVal.dict entries) entries with e | t <;> rfl
      · rw [hf]
        rfl
      · rw [hf]
        rfl
      · rw [hf]
        rfl
      · rw [hf]
        rfl
      · rw [hf]
        rfl
  · rfl

theorem processAll_isOk :
    ∀ records : List PyVal,
      (processAll records).isOk = records.all (fun r => (processRecord r).isOk)
  | [] => rfl
  | r :: rest => by
    rw [processAll, List.all_cons]
    rcases hr : processRecord r with e | v
    · rfl
    · rcases hrest : processAll rest with e' | t
      · have h2 := processAll_isOk rest
        rw [hrest] at h2
        rw [← h2]
        rfl
      · have h2 := processAll_isOk rest
        rw [hrest] at h2
        rw [← h2]
        rfl

/-- Claim C6 as stated is false for list elements: a list value may contain
an element of any type — the elements are passed through `str()` with no
check — so a record with value `[None]` serializes successfully instead of
failing. -/
theorem C6_counterexample :
    to_ldif (.list [.dict [(.str "dn", .str "dc=x"), (.str "a", .list [.none_])]])
      = .ok "dn: dc=x\na: None\n\n" := by
  decide

/-- C6 (amended): `to_ldif` validates before encoding and is
all-or-nothing — it succeeds exactly when every record is a dictionary
exposing a string `dn` whose other entries have string keys and values
that are strings, integers or lists; any other record shape fails the
whole operation with a structural type error carrying the offending
record (and the key, for a value of invalid type), and no output is
produced.  List values are the exception the claim misses: their elements
are not validated but stringified whatever their type. -/
theorem C6_validation_boundary :
    ∀ records : List PyVal,
      (to_ldif (.list records)).isOk = records.all validRecord := by
  intro records
  rw [to_ldif]
  show ((processAll records).map _).isOk = _
  rw [Except.isOk_map, processAll_isOk]
  congr 1
  funext r
  exact processRecord_isOk r

theorem digitChar_range (k : Nat) :
    48 ≤ (digitChar k).toNat ∧ (digitChar k).toNat ≤ 57 := by
  unfold digitChar
  split <;> decide

theorem natDigitsAux_range :
    ∀ (fuel n : Nat) (c : Char), c ∈ natDigitsAux fuel n →
      48 ≤ c.toNat ∧ c.toNat ≤ 57
  | 0, n, c, h => by simp [natDigitsAux] at h
  | fuel + 1, n, c, h => by
    rw [natDigitsAux] at h
    by_cases hn : n < 10
    · rw [if_pos hn] at h
      simp only [List.mem_singleton] at h
      subst h
      exact digitChar_range n
    · rw [if_neg hn] at h
      rcases List.mem_append.mp h with h' | h'
      · exact natDigitsAux_range fuel (n / 10) c h'
      · simp only [List.mem_singleton] at h'
        subst h'
        exact digitChar_range (n % 10)

theorem natDigits_range (n : Nat) (c : Char) (h : c ∈ natDigits n) :
    48 ≤ c.toNat ∧ c.toNat ≤ 57 :=
  natDigitsAux_range (n + 1) n c h

theorem natDigits_ne_nil (n : Nat) : natDigits n ≠ [] := by
  rw [natDigits, natDigitsAux]
  by_cases hn : n < 10
  · rw [if_pos hn]
    simp
  · rw [if_neg hn]
    simp

theorem safeChar_of_digit (c : Char) (h : 48 ≤ c.toNat ∧ c.toNat ≤ 57) :
    (decide (c.toNat < 128 ∧ c ≠ Char.ofNat 0 ∧ c ≠ '\r' ∧ c ≠ '\n')) = true := by
  simp only [decide_eq_true_eq]
  refine ⟨by omega, ?_, ?_, ?_⟩ <;>
    exact fun he => by subst he; exact absurd h (by decide)

theorem headSafe_of_digit (c : Char) (h1 : 48 ≤ c.toNat) (h2 : c.toNat ≤ 57) :
    decide (c ≠ ' ' ∧ c ≠ ':' ∧ c ≠ '<') = true := by
  simp only [decide_eq_true_eq]
  refine ⟨?_, ?_, ?_⟩ <;>
    exact fun he => by subst he; exact absurd (And.intro h1 h2) (by decide)

theorem lastSafe_of_digit (c : Char) (h1 : 48 ≤ c.toNat) (h2 : c.toNat ≤ 57) :
    decide (c ≠ ' ') = true := by
  simp only [decide_eq_true_eq]
  exact fun he => by subst he; exact absurd (And.intro h1 h2) (by decide)

theorem intStr_safe (n : Int) : safeString (intStr n) = true := by
  rw [safeString]
  have hall : ∀ m : Nat, (natDigits m).all
      (fun c => decide (c.toNat < 128 ∧ c ≠ Char.ofNat 0 ∧ c ≠ '\r' ∧ c ≠ '\n')) = true := by
    intro m
    rw [List.all_eq_true]
    intro c hc
    exact safeChar_of_digit c (natDigits_range m c hc)
  by_cases hn : n < 0
  · rw [intStr, if_pos hn]
    refine Bool.and_eq_true_iff.mpr ⟨Bool.and_eq_true_iff.mpr ⟨?_, ?_⟩, ?_⟩
    · show (('-' :: natDigits n.natAbs).all _) = true
      rw [List.all_cons]
      exact Bool.and_eq_true_iff.mpr ⟨by decide, hall n.natAbs⟩
    · show (match ('-' :: natDigits n.natAbs : List Char) with
        | [] => true
        | c :: _ => decide (c ≠ ' ' ∧ c ≠ ':' ∧ c ≠ '<')) = true
      rfl
    · show (match ('-' :: natDigits n.natAbs : List Char).getLast? with
        | some c => decide (c ≠ ' ')
        | none => true) = true
      rcases hds : natDigits n.natAbs with _ | ⟨d, ds⟩
      · exact absurd hds (natDigits_ne_nil n.natAbs)
      · rw [List.getLast?_cons_cons]
        rcases hg : (d :: ds).getLast? with _ | c
        · rfl
        · have hc : c ∈ natDigits n.natAbs := by
            rw [hds]
            exact List.mem_of_getLast?_eq_some hg
          obtain ⟨h1, h2⟩ := natDigits_range n.natAbs c hc
          exact lastSafe_of_digit c h1 h2
  · rw [intStr, if_neg hn]
    refine Bool.and_eq_true_iff.mpr ⟨Bool.and_eq_true_iff.mpr ⟨?_, ?_⟩, ?_⟩
    · exact hall n.natAbs
    · show (match (natDigits n.natAbs : List Char) with
        | [] => true
        | c :: _ => decide (c ≠ ' ' ∧ c ≠ ':' ∧ c ≠ '<')) = true
      rcases hds : natDigits n.natAbs with _ | ⟨d, ds⟩
      · rfl
      · have hd : d ∈ natDigits n.natAbs := by
          rw [hds]
          exact List.mem_cons_self d ds
        obtain ⟨h1, h2⟩ := natDigits_range n.natAbs d hd
        exact headSafe_of_digit d h1 h2
    · show (match (natDigits n.natAbs : List Char).getLast? with
        | some c => decide (c ≠ ' ')
        | none => true) = true
      rcases hg : (natDigits n.natAbs).getLast? with _ | c
      · rfl
      · have hc : c ∈ natDigits n.natAbs := List.mem_of_getLast?_eq_some hg
        obtain ⟨h1, h2⟩ := natDigits_range n.natAbs c hc
        exact lastSafe_of_digit c h1 h2

theorem safeString_spec (v : String) (h : safeString v = true) :
    '\n' ∉ v.data
    ∧ (∀ c, v.data.head? = some c → c ≠ ' ' ∧ c ≠ ':' ∧ c ≠ '<')
    ∧ (∀ c, v.data.getLast? = some c → c ≠ ' ') := by
  rw [safeString] at h
  have hs := Bool.and_eq_true_iff.mp h
  have h3 := hs.2
  have hs2 := Bool.and_eq_true_iff.mp hs.1
  have h1 := hs2.1
  have h2 := hs2.2
  refine ⟨?_, ?_, ?_⟩
  · intro hmem
    rw [List.all_eq_true] at h1
    have := h1 '\n' hmem
    simp at this
  · intro c hc
    rcases hd : v.data with _ | ⟨c0, rest⟩
    · rw [hd] at hc
      simp at hc
    · rw [hd] at hc h2
      simp only [List.head?_cons, Option.some.injEq] at hc
      subst hc
      simpa using h2
  · intro c hc
    rw [hc] at h3
    simpa using h3

theorem splitFirst_append (sep : Char) :
    ∀ (xs ys : List Char), sep ∉ xs →
      splitFirst sep (xs ++ sep :: ys) = some (xs, ys)
  | [], ys, _ => by
    rw [List.nil_append, splitFirst, if_pos rfl]
  | x :: xs, ys, h => by
    have hx : ¬x = sep := fun he => h (he ▸ List.mem_cons_self x xs)
    rw [List.cons_append, splitFirst, if_neg (fun he => hx he)]
    rw [splitFirst_append sep xs ys (fun hm => h (List.mem_cons_of_mem x hm))]
    rfl

theorem dropWhile_space_eq_self (l : List Char)
    (h : ∀ c, l.head? = some c → c ≠ ' ') :
    l.dropWhile (fun c => c == ' ') = l := by
  rcases l with _ | ⟨c, rest⟩
  · rfl
  · rw [List.dropWhile_cons]
    have : ¬c = ' ' := h c rfl
    simp [this]

theorem stripSpaces_safe (v : String) (h : safeString v = true) :
    stripSpaces (' ' :: v.data) = v.data := by
  obtain ⟨_, hhead, hlast⟩ := safeString_spec v h
  rw [stripSpaces]
  have h1 : (' ' :: v.data).dropWhile (fun c => c == ' ') = v.data := by
    rw [List.dropWhile_cons]
    simp only [beq_self_eq_true, if_pos]
    exact dropWhile_space_eq_self v.data (fun c hc => (hhead c hc).1)
  rw [h1]
  have h2 : v.data.reverse.dropWhile (fun c => c == ' ') = v.data.reverse := by
    apply dropWhile_space_eq_self
    intro c hc
    rw [List.head?_reverse] at hc
    exact hlast c hc
  rw [h2, List.reverse_reverse]

theorem splitBy_ne_nil {α : Type} (p : α → Bool) : ∀ l : List α, splitBy p l ≠ []
  | [] => by simp [splitBy]
  | a :: as => by
    rw [splitBy]
    by_cases h : p a = true
    · rw [if_pos h]
      simp
    · rw [if_neg h]
      rcases hs : splitBy p as with _ | ⟨g, gs⟩
      · exact absurd hs (splitBy_ne_nil p as)
      · simp

theorem splitBy_nosep {α : Type} (p : α → Bool) :
    ∀ l : List α, (∀ x ∈ l, p x = false) → splitBy p l = [l]
  | [], _ => rfl
  | a :: as, h => by
    rw [splitBy, if_neg (by rw [h a (List.mem_cons_self a as)]; simp)]
    rw [splitBy_nosep p as (fun x hx => h x (List.mem_cons_of_mem a hx))]

theorem splitBy_append {α : Type} (p : α → Bool) :
    ∀ (xs : List α) (s : α) (ys : List α), (∀ x ∈ xs, p x = false) → p s = true →
      splitBy p (xs ++ s :: ys) = xs :: splitBy p ys
  | [], s, ys, _, hs => by
    rw [List.nil_append, splitBy, if_pos hs]
  | x :: xs, s, ys, h, hs => by
    rw [List.cons_append, splitBy,
      if_neg (by rw [h x (List.mem_cons_self x xs)]; simp)]
    rw [splitBy_append p xs s ys (fun z hz => h z (List.mem_cons_of_mem x hz)) hs]

theorem attrLine_safe (k v : String) (h : safeString v = true) :
    attrLine k v = k ++ ": " ++ v := by
  rw [attrLine, if_pos h]

theorem attrLine_data (k v : String) (h : safeString v = true) :
    (attrLine k v).data = k.data ++ ':' :: ' ' :: v.data := by
  rw [attrLine_safe k v h]
  simp

theorem parseLine_written (k v : String) (hk : ':' ∉ k.data)
    (hv : safeString v = true) :
    parseLine ((attrLine k v).data) = .ok (k, .str v) := by
  rw [attrLine_data k v hv, parseLine, splitFirst_append ':' k.data (' ' :: v.data) hk]
  show Except.ok ((⟨k.data⟩ : String), PyVal.str ⟨stripSpaces (' ' :: v.data)⟩) = _
  rw [stripSpaces_safe v hv]

theorem unfoldAux_id :
    ∀ (fuel : Nat) (ls : List (List Char)),
      (∀ l ∈ ls, l.head? ≠ some ' ') → unfoldAux fuel ls = ls
  | fuel, [], _ => by cases fuel <;> rfl
  | fuel, [l], _ => by cases fuel <;> rfl
  | 0, _ :: _ :: _, _ => rfl
  | fuel + 1, l1 :: l2 :: rest, h => by
    rw [unfoldAux]
    have hne : ¬l2.head? = some ' ' :=
      h l2 (List.mem_cons_of_mem l1 (List.mem_cons_self l2 rest))
    rw [if_neg hne,
      unfoldAux_id fuel (l2 :: rest) (fun l hl => h l (List.mem_cons_of_mem l1 hl))]

theorem unfoldLines_id (ls : List (List Char))
    (h : ∀ l ∈ ls, l.head? ≠ some ' ') : unfoldLines ls = ls :=
  unfoldAux_id ls.length ls h

theorem dropComments_id (ls : List (List Char))
    (h : ∀ l ∈ ls, l.head? ≠ some '#') : dropComments ls = ls := by
  rw [dropComments, List.filter_eq_self]
  intro l hl
  rw [if_neg (h l hl)]

theorem validRTEntry_shape (k v : PyVal) (h : validRTEntry (k, v) = true)
    (hdn : k ≠ PyVal.str "dn") :
    ∃ ks, k = PyVal.str ks ∧ validRTKey ks = true ∧ validRTVal v = true := by
  rcases k with ks | n | bs | es | entries | _
  · refine ⟨ks, rfl, ?_⟩
    have h' : ((PyVal.str ks == PyVal.str "dn") || (validRTKey ks && validRTVal v)) = true := h
    rcases Bool.or_eq_true_iff.mp h' with h1 | h2
    · exact absurd (by simpa using h1) hdn
    · exact Bool.and_eq_true_iff.mp h2
  · exact Bool.noConfusion (show (false : Bool) = true from h)
  · exact Bool.noConfusion (show (false : Bool) = true from h)
  · exact Bool.noConfusion (show (false : Bool) = true from h)
  · exact Bool.noConfusion (show (false : Bool) = true from h)
  · exact Bool.noConfusion (show (false : Bool) = true from h)

theorem processEntries_eq (r : PyVal) :
    ∀ entries : List (PyVal × PyVal),
      (∀ kv ∈ entries, validRTEntry kv = true) →
      processEntries r entries = .ok (procAttrs entries)
  | [], _ => rfl
  | (k, v) :: rest, h => by
    have hkv := h (k, v) (List.mem_cons_self _ _)
    have ih := processEntries_eq r rest (fun kv hm => h kv (List.mem_cons_of_mem _ hm))
    by_cases hdn : k = PyVal.str "dn"
    · subst hdn
      have e1 : processEntries r ((PyVal.str "dn", v) :: rest) = processEntries r rest := by
        simp [processEntries]
      have e2 : procAttrs ((PyVal.str "dn", v) :: rest) = procAttrs rest := by
        simp [procAttrs]
      rw [e1, e2]
      exact ih
    · obtain ⟨ks, hk, _, hval⟩ := validRTEntry_shape k v hkv hdn
      subst hk
      rcases v with s | n | bs | es | entries' | _
      · have e1 : processEntries r ((PyVal.str ks, PyVal.str s) :: rest)
            = (processEntries r rest).map (fun t => (ks, [s]) :: t) := by
          simp [processEntries, hdn]
        have e2 : procAttrs ((PyVal.str ks, PyVal.str s) :: rest)
            = (ks, [s]) :: procAttrs rest := by
          simp [procAttrs, hdn]
        rw [e1, e2, ih]
        rfl
      · have e1 : processEntries r ((PyVal.str ks, PyVal.int n) :: rest)
            = (processEntries r rest).map (fun t => (ks, [intStr n]) :: t) := by
          simp [processEntries, hdn]
        have e2 : procAttrs ((PyVal.str ks, PyVal.int n) :: rest)
            = (ks, [intStr n]) :: procAttrs rest := by
          simp [procAttrs, hdn]
        rw [e1, e2, ih]
        rfl
      · exact Bool.noConfusion (show (false : Bool) = true from hval)
      · have e1 : processEntries r ((PyVal.str ks, PyVal.list es) :: rest)
            = (processEntries r rest).map (fun t => (ks, es.map pyStr) :: t) := by
          simp [processEntries, hdn]
        have e2 : procAttrs ((PyVal.str ks, PyVal.list es) :: rest)
            = (ks, es.map pyStr) :: procAttrs rest := by
          simp [procAttrs, hdn]
        rw [e1, e2, ih]
        rfl
      · exact Bool.noConfusion (show (false : Bool) = true from hval)
      · exact Bool.noConfusion (show (false : Bool) = true from hval)

theorem validRTRec_shape (entries : List (PyVal × PyVal))
    (h : validRTRec (.dict entries) = true) :
    (entries.map Prod.fst).Nodup
    ∧ (∃ d, (entries.find? (fun kv => kv.1 == PyVal.str "dn")).map Prod.snd
          = some (PyVal.str d) ∧ safeString d = true)
    ∧ (∀ kv ∈ entries, validRTEntry kv = true) := by
  have h' : ((decide (entries.map Prod.fst).Nodup
      && (match (entries.find? (fun kv => kv.1 == PyVal.str "dn")).map Prod.snd with
          | some (.str d) => safeString d
          | _ => false))
      && entries.all validRTEntry) = true := h
  have hs := Bool.and_eq_true_iff.mp h'
  have hs2 := Bool.and_eq_true_iff.mp hs.1
  refine ⟨by simpa using hs2.1, ?_, by simpa [List.all_eq_true] using hs.2⟩
  have h2 := hs2.2
  rcases hf : (entries.find? (fun kv => kv.1 == PyVal.str "dn")).map Prod.snd with _ | dv
  · rw [hf] at h2
    exact Bool.noConfusion (show (false : Bool) = true from h2)
  · rw [hf] at h2
    rcases dv with d | n | bs | es | entries' | _
    · exact ⟨d, hf, h2⟩
    · exact Bool.noConfusion (show (false : Bool) = true from h2)
    · exact Bool.noConfusion (show (false : Bool) = true from h2)
    · exact Bool.noConfusion (show (false : Bool) = true from h2)
    · exact Bool.noConfusion (show (false : Bool) = true from h2)
    · exact Bool.noConfusion (show (false : Bool) = true from h2)

theorem processRecord_eq (r : PyVal) (h : validRTRec r = true) :
    processRecord r = .ok (rtProc r) := by
  rcases r with s | n | bs | es | entries | _
  · exact Bool.noConfusion (show (false : Bool) = true from h)
  · exact Bool.noConfusion (show (false : Bool) = true from h)
  · exact Bool.noConfusion (show (false : Bool) = true from h)
  · exact Bool.noConfusion (show (false : Bool) = true from h)
  · obtain ⟨_, ⟨d, hd, _⟩, hall⟩ := validRTRec_shape entries h
    have e1 : processRecord (PyVal.dict entries)
        = (match (entries.find? (fun kv => kv.1 == PyVal.str "dn")).map Prod.snd with
           | none => Except.error (.noDN (PyVal.dict entries))
           | some (PyVal.str d1) =>
             (processEntries (PyVal.dict entries) entries).map (fun a => (d1, a))
           | some _ => Except.error (.dnNotString (PyVal.dict entries))) := rfl
    have e2 : rtProc (PyVal.dict entries)
        = (match (entries.find? (fun kv => kv.1 == PyVal.str "dn")).map Prod.snd with
           | some (PyVal.str d1) => (d1, procAttrs entries)
           | _ => ("", [])) := rfl
    rw [e1, e2, hd, processEntries_eq (PyVal.dict entries) entries hall]
    rfl
  · exact Bool.noConfusion (show (false : Bool) = true from h)

theorem processAll_eq :
    ∀ records : List PyVal, (∀ r ∈ records, validRTRec r = true) →
      processAll records = .ok (records.map rtProc)
  | [], _ => rfl
  | r :: rest, h => by
    rw [processAll, processRecord_eq r (h r (List.mem_cons_self _ _)),
      processAll_eq rest (fun x hx => h x (List.mem_cons_of_mem _ hx))]
    rfl

theorem validRTVal_parts (v : PyVal) (h : validRTVal v = true) :
    ∀ s ∈ rtValueList v, ∃ vs, s = PyVal.str vs ∧ safeString vs = true := by
  rcases v with s | n | bs | es | entries | _
  · intro x hx
    have hs : safeString s = true := h
    have hx0 : x ∈ [PyVal.str s] := hx
    have hx' : x = PyVal.str s := by simpa using hx0
    exact ⟨s, hx', hs⟩
  · intro x hx
    have hx0 : x ∈ [PyVal.str (intStr n)] := hx
    have hx' : x = PyVal.str (intStr n) := by simpa using hx0
    exact ⟨intStr n, hx', intStr_safe n⟩
  · exact Bool.noConfusion (show (false : Bool) = true from h)
  · intro x hx
    have h' : (!es.isEmpty && es.all (fun e =>
        match e with
        | .str s => safeString s
        | .int _ => true
        | _ => false)) = true := h
    have hall := (Bool.and_eq_true_iff.mp h').2
    rw [List.all_eq_true] at hall
    have he : x ∈ es.map (fun e => PyVal.str (pyStr e)) := hx
    obtain ⟨e, hes, hxe⟩ := List.mem_map.mp he
    have hee := hall e hes
    rcases e with s | n | bs' | es' | entries' | _
    · exact ⟨pyStr (.str s), hxe.symm, hee⟩
    · exact ⟨pyStr (.int n), hxe.symm, intStr_safe n⟩
    · exact Bool.noConfusion (show (false : Bool) = true from hee)
    · exact Bool.noConfusion (show (false : Bool) = true from hee)
    · exact Bool.noConfusion (show (false : Bool) = true from hee)
    · exact Bool.noConfusion (show (false : Bool) = true from hee)
  · exact Bool.noConfusion (show (false : Bool) = true from h)
  · exact Bool.noConfusion (show (false : Bool) = true from h)

theorem rtValueList_ne_nil (v : PyVal) (h : validRTVal v = true) :
    rtValueList v ≠ [] := by
  rcases v with s | n | bs | es | entries | _
  · simp [rtValueList]
  · simp [rtValueList]
  · exact Bool.noConfusion (show (false : Bool) = true from h)
  · have h' : (!es.isEmpty && es.all (fun e =>
        match e with
        | .str s => safeString s
        | .int _ => true
        | _ => false)) = true := h
    have hne := (Bool.and_eq_true_iff.mp h').1
    show es.map (fun e => PyVal.str (pyStr e)) ≠ []
    intro hc
    rw [List.map_eq_nil_iff] at hc
    rw [hc] at hne
    exact Bool.noConfusion hne
  · exact Bool.noConfusion (show (false : Bool) = true from h)
  · exact Bool.noConfusion (show (false : Bool) = true from h)

theorem rtValueList_str_map (v : PyVal) (h : validRTVal v = true) :
    ((rtValueList v).map pyStr).map PyVal.str = rtValueList v := by
  rw [List.map_map]
  conv_rhs => rw [← List.map_id (rtValueList v)]
  apply List.map_congr_left
  intro x hx
  obtain ⟨vs, hv1, _⟩ := validRTVal_parts v h x hx
  subst hv1
  rfl

theorem procAttrs_entry (ks : String) (v : PyVal) (rest : List (PyVal × PyVal))
    (hdn : PyVal.str ks ≠ PyVal.str "dn") (hv : validRTVal v = true) :
    procAttrs ((PyVal.str ks, v) :: rest)
      = (ks, (rtValueList v).map pyStr) :: procAttrs rest := by
  rcases v with s | n | bs | es | entries' | _
  · simp [procAttrs, hdn, rtValueList, pyStr]
  · simp [procAttrs, hdn, rtValueList, pyStr]
  · exact Bool.noConfusion (show (false : Bool) = true from hv)
  · simp [procAttrs, hdn, rtValueList, List.map_map, Function.comp, pyStr]
  · exact Bool.noConfusion (show (false : Bool) = true from hv)
  · exact Bool.noConfusion (show (false : Bool) = true from hv)

theorem procAttrs_props :
    ∀ entries : List (PyVal × PyVal), (∀ kv ∈ entries, validRTEntry kv = true) →
      ∀ kv ∈ procAttrs entries,
        validRTKey kv.1 = true ∧ kv.2 ≠ [] ∧ ∀ v ∈ kv.2, safeString v = true
  | [], _ => by intro kv hkv; cases hkv
  | (k, v) :: rest, h => by
    have hkv := h (k, v) (List.mem_cons_self _ _)
    have ih := procAttrs_props rest (fun kv hm => h kv (List.mem_cons_of_mem _ hm))
    by_cases hdn : k = PyVal.str "dn"
    · subst hdn
      have e : procAttrs ((PyVal.str "dn", v) :: rest) = procAttrs rest := by
        simp [procAttrs]
      rw [e]
      exact ih
    · obtain ⟨ks, hk, hkey, hval⟩ := validRTEntry_shape k v hkv hdn
      subst hk
      rw [procAttrs_entry ks v rest hdn hval]
      intro kv hm
      rcases List.mem_cons.mp hm with he | hm
      · subst he
        refine ⟨hkey, ?_, ?_⟩
        · show (rtValueList v).map pyStr ≠ []
          intro hc
          rw [List.map_eq_nil_iff] at hc
          exact rtValueList_ne_nil v hval hc
        · intro s hs
          obtain ⟨x, hx, hxs⟩ := List.mem_map.mp hs
          obtain ⟨vs, hv1, hv2⟩ := validRTVal_parts v hval x hx
          rw [hv1] at hxs
          rw [← hxs]
          show safeString (pyStr (PyVal.str vs)) = true
          exact hv2
      · exact ih kv hm

theorem procAttrs_keys :
    ∀ entries : List (PyVal × PyVal), (∀ kv ∈ entries, validRTEntry kv = true) →
      (procAttrs entries).map (fun kv => PyVal.str kv.1)
        = (entries.filter (fun kv => !(kv.1 == PyVal.str "dn"))).map Prod.fst
  | [], _ => rfl
  | (k, v) :: rest, h => by
    have hkv := h (k, v) (List.mem_cons_self _ _)
    have ih := procAttrs_keys rest (fun kv hm => h kv (List.mem_cons_of_mem _ hm))
    by_cases hdn : k = PyVal.str "dn"
    · subst hdn
      have e : procAttrs ((PyVal.str "dn", v) :: rest) = procAttrs rest := by
        simp [procAttrs]
      rw [e, ih, List.filter_cons]
      simp
    · obtain ⟨ks, hk, hkey, hval⟩ := validRTEntry_shape k v hkv hdn
      subst hk
      rw [procAttrs_entry ks v rest hdn hval, List.filter_cons]
      have hb : (!(PyVal.str ks == PyVal.str "dn")) = true := by
        simp [hdn]
      rw [if_pos hb]
      simp only [List.map_cons]
      rw [ih]

theorem procAttrs_expected :
    ∀ entries : List (PyVal × PyVal), (∀ kv ∈ entries, validRTEntry kv = true) →
      (procAttrs entries).map (fun kv => (PyVal.str kv.1, PyVal.list (kv.2.map PyVal.str)))
        = (entries.filter (fun kv => !(kv.1 == PyVal.str "dn"))).map
            (fun kv => (kv.1, PyVal.list (rtValueList kv.2)))
  | [], _ => rfl
  | (k, v) :: rest, h => by
    have hkv := h (k, v) (List.mem_cons_self _ _)
    have ih := procAttrs_expected rest (fun kv hm => h kv (List.mem_cons_of_mem _ hm))
    by_cases hdn : k = PyVal.str "dn"
    · subst hdn
      have e : procAttrs ((PyVal.str "dn", v) :: rest) = procAttrs rest := by
        simp [procAttrs]
      rw [e, ih, List.filter_cons]
      simp
    · obtain ⟨ks, hk, hkey, hval⟩ := validRTEntry_shape k v hkv hdn
      subst hk
      rw [procAttrs_entry ks v rest hdn hval, List.filter_cons]
      have hb : (!(PyVal.str ks == PyVal.str "dn")) = true := by
        simp [hdn]
      rw [if_pos hb]
      simp only [List.map_cons]
      rw [ih, rtValueList_str_map v hval]

theorem parseLines_ok_append :
    ∀ (ls1 : List (List Char)) (ps1 : List (String × PyVal)) (ls2 : List (List Char)),
      parseLines ls1 = .ok ps1 →
      parseLines (ls1 ++ ls2) = (parseLines ls2).map (ps1 ++ ·)
  | [], ps1, ls2, h => by
    have hp : ps1 = [] := by
      have h' : Except.ok (ε := FromLdifErr) ([] : List (String × PyVal)) = .ok ps1 := h
      exact (Except.ok.inj h').symm
    subst hp
    rw [List.nil_append]
    rcases he : parseLines ls2 with e | t <;> rfl
  | l :: rest, ps1, ls2, h => by
    rw [parseLines] at h
    rcases hp : parseLine l with e | p <;> rw [hp] at h
    · exact Except.noConfusion (show Except.error (α := List (String × PyVal)) e
        = Except.ok ps1 from h)
    · rcases hr : parseLines rest with e | ps <;> rw [hr] at h
      · exact Except.noConfusion (show Except.error (α := List (String × PyVal)) e
          = Except.ok ps1 from h)
      · have h' : Except.ok (ε := FromLdifErr) (p :: ps) = Except.ok ps1 := h
        have hps := Except.ok.inj h'
        rw [List.cons_append, parseLines, hp,
          parseLines_ok_append rest ps ls2 hr]
        rcases he2 : parseLines ls2 with e2 | t
        · rfl
        · show Except.ok (p :: (ps ++ t)) = Except.ok (ps1 ++ t)
          rw [← hps]
          rfl

theorem parseLines_attr :
    ∀ (vs : List String) (k : String), ':' ∉ k.data →
      (∀ v ∈ vs, safeString v = true) →
      parseLines ((vs.map (attrLine k)).map String.data)
        = .ok (vs.map (fun v => (k, PyVal.str v)))
  | [], _, _, _ => rfl
  | v :: vrest, k, hk, hv => by
    simp only [List.map_cons]
    rw [parseLines, parseLine_written k v hk (hv v (List.mem_cons_self _ _)),
      parseLines_attr vrest k hk (fun x hx => hv x (List.mem_cons_of_mem _ hx))]
    rfl

theorem parseLines_flat :
    ∀ attrs : List (String × List String),
      (∀ kv ∈ attrs, ':' ∉ kv.1.data) →
      (∀ kv ∈ attrs, ∀ v ∈ kv.2, safeString v = true) →
      parseLines ((attrs.flatMap (fun kv => kv.2.map (attrLine kv.1))).map String.data)
        = .ok (attrs.flatMap (fun kv => kv.2.map (fun v => (kv.1, PyVal.str v))))
  | [], _, _ => rfl
  | (k, vs) :: rest, hk, hv => by
    rw [List.flatMap_cons, List.map_append,
      parseLines_ok_append _ _ _
        (parseLines_attr vs k (hk (k, vs) (List.mem_cons_self _ _))
          (hv (k, vs) (List.mem_cons_self _ _))),
      parseLines_flat rest (fun kv hm => hk kv (List.mem_cons_of_mem _ hm))
        (fun kv hm => hv kv (List.mem_cons_of_mem _ hm)),
      List.flatMap_cons]
    rfl

theorem addPair_fresh (m : List (String × List PyVal)) (k : String) (v : PyVal)
    (h : ∀ kv ∈ m, kv.1 ≠ k) : addPair m k v = m ++ [(k, [v])] := by
  have ha : m.any (fun kv => kv.1 == k) = false := by
    rw [List.any_eq_false]
    intro kv hkv
    simpa using h kv hkv
  rw [addPair, ha]
  simp

theorem addPair_last (m : List (String × List PyVal)) (k : String) (vs : List PyVal)
    (v : PyVal) (h : ∀ kv ∈ m, kv.1 ≠ k) :
    addPair (m ++ [(k, vs)]) k v = m ++ [(k, vs ++ [v])] := by
  have ha : (m ++ [(k, vs)]).any (fun kv => kv.1 == k) = true := by
    rw [List.any_eq_true]
    exact ⟨(k, vs), by simp, by simp⟩
  have hm : m.map (fun kv => if kv.1 == k then (kv.1, kv.2 ++ [v]) else kv) = m := by
    conv_rhs => rw [← List.map_id m]
    apply List.map_congr_left
    intro kv hkv
    have hne : (kv.1 == k) = false := by simpa using h kv hkv
    rw [hne]
    simp
  rw [addPair, ha]
  simp only [if_pos rfl, List.map_append, hm]
  simp

theorem foldl_addPair_run :
    ∀ (vs : List String) (k : String) (m : List (String × List PyVal)) (acc : List PyVal),
      (∀ kv ∈ m, kv.1 ≠ k) →
      (vs.map (fun v => (k, PyVal.str v))).foldl (fun m kv => addPair m kv.1 kv.2)
          (m ++ [(k, acc)])
        = m ++ [(k, acc ++ vs.map PyVal.str)]
  | [], k, m, acc, h => by simp
  | v :: vrest, k, m, acc, h => by
    simp only [List.map_cons, List.foldl_cons]
    rw [addPair_last m k acc (PyVal.str v) h,
      foldl_addPair_run vrest k m (acc ++ [PyVal.str v]) h]
    simp

theorem foldl_addPair_flat :
    ∀ (attrs : List (String × List String)) (m : List (String × List PyVal)),
      (∀ kv ∈ attrs, ∀ km ∈ m, km.1 ≠ kv.1) →
      (attrs.map Prod.fst).Nodup →
      (∀ kv ∈ attrs, kv.2 ≠ []) →
      (attrs.flatMap (fun kv => kv.2.map (fun v => (kv.1, PyVal.str v)))).foldl
          (fun m kv => addPair m kv.1 kv.2) m
        = m ++ attrs.map (fun kv => (kv.1, kv.2.map PyVal.str))
  | [], m, _, _, _ => by simp
  | (k, vs) :: rest, m, hfresh, hnd, hne => by
    rcases hvs : vs with _ | ⟨v0, vrest⟩
    · exact absurd hvs (hne (k, vs) (List.mem_cons_self _ _) ∘ (hvs ▸ ·))
    · subst hvs
      rw [List.flatMap_cons, List.foldl_append]
      simp only [List.map_cons, List.foldl_cons]
      have hfk : ∀ km ∈ m, km.1 ≠ k :=
        fun km hm => hfresh (k, v0 :: vrest) (List.mem_cons_self _ _) km hm
      have hnd2 : k ∉ rest.map Prod.fst ∧ (rest.map Prod.fst).Nodup := by
        simpa only [List.map_cons, List.nodup_cons] using hnd
      rw [addPair_fresh m k (PyVal.str v0) hfk,
        foldl_addPair_run vrest k m [PyVal.str v0] hfk]
      simp only [List.singleton_append]
      rw [foldl_addPair_flat rest (m ++ [(k, PyVal.str v0 :: vrest.map PyVal.str)])
        (fun kv hkv km hkm => by
          rcases List.mem_append.mp hkm with h1 | h2
          · exact hfresh kv (List.mem_cons_of_mem _ hkv) km h1
          · have he2 : km = (k, PyVal.str v0 :: vrest.map PyVal.str) := by simpa using h2
            rw [he2]
            show k ≠ kv.1
            intro hc
            exact hnd2.1 (by rw [hc]; exact List.mem_map_of_mem Prod.fst hkv))
        hnd2.2
        (fun kv hkv => hne kv (List.mem_cons_of_mem _ hkv))]
      simp

theorem dictInsert_fresh (m : List (PyVal × PyVal)) (k v : PyVal)
    (h : ∀ kv ∈ m, kv.1 ≠ k) : dictInsert m k v = m ++ [(k, v)] := by
  have ha : m.any (fun kv => kv.1 == k) = false := by
    rw [List.any_eq_false]
    intro kv hkv
    simpa using h kv hkv
  rw [dictInsert, ha]
  simp

theorem foldl_dictInsert :
    ∀ (gs : List (String × List PyVal)) (m : List (PyVal × PyVal)),
      (∀ kv ∈ gs, ∀ km ∈ m, km.1 ≠ PyVal.str (lowerStr kv.1)) →
      (gs.map Prod.fst).Nodup →
      (∀ kv ∈ gs, lowerStr kv.1 = kv.1) →
      gs.foldl (fun m kv => dictInsert m (.str (lowerStr kv.1)) (.list kv.2)) m
        = m ++ gs.map (fun kv => (PyVal.str kv.1, PyVal.list kv.2))
  | [], m, _, _, _ => by simp
  | (k, vs) :: rest, m, hfresh, hnd, hlow => by
    simp only [List.foldl_cons]
    have hlk : lowerStr k = k := hlow (k, vs) (List.mem_cons_self _ _)
    have hnd2 : k ∉ rest.map Prod.fst ∧ (rest.map Prod.fst).Nodup := by
      simpa only [List.map_cons, List.nodup_cons] using hnd
    rw [hlk,
      dictInsert_fresh m (PyVal.str k) (PyVal.list vs)
        (fun km hkm => hlk ▸ hfresh (k, vs) (List.mem_cons_self _ _) km hkm)]
    rw [foldl_dictInsert rest (m ++ [(PyVal.str k, PyVal.list vs)])
      (fun kv hkv km hkm => by
        rcases List.mem_append.mp hkm with h1 | h2
        · exact hfresh kv (List.mem_cons_of_mem _ hkv) km h1
        · have he2 : km = (PyVal.str k, PyVal.list vs) := by simpa using h2
          rw [he2, hlow kv (List.mem_cons_of_mem _ hkv)]
          show PyVal.str k ≠ PyVal.str kv.1
          intro hc
          have hkk : k = kv.1 := PyVal.str.inj hc
          exact hnd2.1 (by rw [hkk]; exact List.mem_map_of_mem Prod.fst hkv))
      hnd2.2
      (fun kv hkv => hlow kv (List.mem_cons_of_mem _ hkv))]
    simp

theorem validRTKey_parts (ks : String) (h : validRTKey ks = true) :
    lowerStr ks = ks ∧ ks ≠ "dn" ∧ ':' ∉ ks.data ∧ '\n' ∉ ks.data
    ∧ ks.data.head? ≠ some ' ' ∧ ks.data.head? ≠ some '#' := by
  rw [validRTKey] at h
  simp only [Bool.and_eq_true, decide_eq_true_eq] at h
  exact ⟨h.1.1.1.1.1, h.1.1.1.1.2, h.1.1.1.2, h.1.1.2, h.1.2, h.2⟩

theorem attrLine_head_ne (k v : String) (hv : safeString v = true) (c : Char)
    (hc : c ≠ ':') (hk : k.data.head? ≠ some c) :
    (attrLine k v).data.head? ≠ some c := by
  rw [attrLine_data k v hv]
  rcases hd : k.data with _ | ⟨c0, rest⟩
  · simpa using Ne.symm hc
  · rw [hd] at hk
    simpa using fun he => hk (by rw [he]; rfl)

theorem attrLine_ne_nil (k v : String) (hv : safeString v = true) :
    (attrLine k v).data ≠ [] := by
  rw [attrLine_data k v hv]
  rcases hd : k.data with _ | ⟨c0, rest⟩ <;> simp

theorem attrLine_no_newline (k v : String) (hv : safeString v = true)
    (hk : '\n' ∉ k.data) : '\n' ∉ (attrLine k v).data := by
  rw [attrLine_data k v hv]
  intro hm
  rcases List.mem_append.mp hm with h1 | h2
  · exact hk h1
  · have hnl := (safeString_spec v hv).1
    simp only [List.mem_cons] at h2
    rcases h2 with h2 | h2 | h2
    · exact absurd h2 (by decide)
    · exact absurd h2 (by decide)
    · exact hnl h2

theorem recLines_props (d : String) (attrs : List (String × List String))
    (hd : safeString d = true)
    (hprops : ∀ kv ∈ attrs, validRTKey kv.1 = true ∧ kv.2 ≠ []
      ∧ ∀ v ∈ kv.2, safeString v = true) :
    ∀ l ∈ recLines d attrs,
      l.data ≠ [] ∧ '\n' ∉ l.data
      ∧ l.data.head? ≠ some ' ' ∧ l.data.head? ≠ some '#' := by
  intro l hl
  rw [recLines] at hl
  rcases List.mem_cons.mp hl with he | hm
  · subst he
    refine ⟨attrLine_ne_nil "dn" d hd, attrLine_no_newline "dn" d hd (by decide),
      attrLine_head_ne "dn" d hd ' ' (by decide) (by decide),
      attrLine_head_ne "dn" d hd '#' (by decide) (by decide)⟩
  · obtain ⟨kv, hkv, hlm⟩ := List.mem_flatMap.mp hm
    obtain ⟨v, hva, hve⟩ := List.mem_map.mp hlm
    obtain ⟨hkey, _, hsafe⟩ := hprops kv hkv
    obtain ⟨_, _, _, hknl, hksp, hkhash⟩ := validRTKey_parts kv.1 hkey
    subst hve
    have hvs := hsafe v hva
    exact ⟨attrLine_ne_nil kv.1 v hvs, attrLine_no_newline kv.1 v hvs hknl,
      attrLine_head_ne kv.1 v hvs ' ' (by decide) hksp,
      attrLine_head_ne kv.1 v hvs '#' (by decide) hkhash⟩

theorem parseEntry_record (d : String) (attrs : List (String × List String))
    (hd : safeString d = true)
    (hprops : ∀ kv ∈ attrs, validRTKey kv.1 = true ∧ kv.2 ≠ []
      ∧ ∀ v ∈ kv.2, safeString v = true)
    (hnd : (attrs.map Prod.fst).Nodup) :
    parseEntry ((recLines d attrs).map String.data)
      = .ok (some (.dict ((PyVal.str "dn", PyVal.str d) ::
          attrs.map (fun kv => (PyVal.str kv.1, PyVal.list (kv.2.map PyVal.str)))))) := by
  have hpr := recLines_props d attrs hd hprops
  have hsp : ∀ l ∈ (recLines d attrs).map String.data, l.head? ≠ some ' ' := by
    intro l hl
    obtain ⟨s, hs, he⟩ := List.mem_map.mp hl
    exact he ▸ (hpr s hs).2.2.1
  have hhash : ∀ l ∈ (recLines d attrs).map String.data, l.head? ≠ some '#' := by
    intro l hl
    obtain ⟨s, hs, he⟩ := List.mem_map.mp hl
    exact he ▸ (hpr s hs).2.2.2
  rw [parseEntry, unfoldLines_id _ hsp, dropComments_id _ hhash, recLines,
    List.map_cons, parseEntryBody,
    parseLine_written "dn" d (by decide) hd]
  show parseEntryRest d
      ((attrs.flatMap (fun kv => kv.2.map (attrLine kv.1))).map String.data) = _
  rw [parseEntryRest,
    parseLines_flat attrs (fun kv hkv => (validRTKey_parts kv.1 (hprops kv hkv).1).2.2.1)
      (fun kv hkv => (hprops kv hkv).2.2)]
  have hany : (attrs.flatMap
      (fun kv => kv.2.map (fun v => (kv.1, PyVal.str v)))).any
        (fun kv => lowerStr kv.1 == "dn") = false := by
    rw [List.any_eq_false]
    intro p hp
    obtain ⟨kv, hkv, hpm⟩ := List.mem_flatMap.mp hp
    obtain ⟨v, _, hpe⟩ := List.mem_map.mp hpm
    obtain ⟨hlow, hdn, _⟩ := validRTKey_parts kv.1 (hprops kv hkv).1
    rw [← hpe]
    simpa [hlow] using hdn
  show (if (attrs.flatMap
      (fun kv => kv.2.map (fun v => (kv.1, PyVal.str v)))).any
        (fun kv => lowerStr kv.1 == "dn") = true
    then Except.error FromLdifErr.parseFailure
    else Except.ok (some (buildRecord d (attrs.flatMap
      (fun kv => kv.2.map (fun v => (kv.1, PyVal.str v))))))) = _
  rw [hany]
  simp only [Bool.false_eq_true, if_false]
  rw [buildRecord,
    foldl_addPair_flat attrs [] (fun kv _ km hkm => absurd hkm (List.not_mem_nil km))
      hnd (fun kv hkv => (hprops kv hkv).2.1),
    List.nil_append]
  have hlow2 : ∀ kv ∈ attrs.map (fun kv => (kv.1, kv.2.map PyVal.str)),
      lowerStr kv.1 = kv.1 := by
    intro kv hkv
    obtain ⟨kv0, hkv0, he⟩ := List.mem_map.mp hkv
    rw [← he]
    exact (validRTKey_parts kv0.1 (hprops kv0 hkv0).1).1
  rw [foldl_dictInsert (attrs.map (fun kv => (kv.1, kv.2.map PyVal.str)))
      [(PyVal.str "dn", PyVal.str d)]
      (fun kv hkv km hkm => by
        have he : km = (PyVal.str "dn", PyVal.str d) := by simpa using hkm
        rw [he, hlow2 kv hkv]
        show PyVal.str "dn" ≠ PyVal.str kv.1
        intro hc
        obtain ⟨kv0, hkv0, he0⟩ := List.mem_map.mp hkv
        have : kv.1 = kv0.1 := by rw [← he0]
        exact (validRTKey_parts kv0.1 (hprops kv0 hkv0).1).2.1
          (by rw [← this, ← PyVal.str.inj hc])
      )
      (by
        rw [List.map_map]
        exact hnd)
      hlow2]
  rw [List.singleton_append, List.map_map]
  rfl

theorem splitBy_blockText :
    ∀ (ls : List String) (more : List Char),
      (∀ l ∈ ls, '\n' ∉ l.data) →
      splitBy (fun c => c == '\n') ((blockText ls).data ++ more)
        = ls.map String.data ++ splitBy (fun c => c == '\n') more
  | [], more, _ => by
    rw [blockText, show ("" : String).data = [] from rfl, List.nil_append,
      List.map_nil, List.nil_append]
  | l :: ls, more, h => by
    rw [blockText]
    have hdata : (l ++ "\n" ++ blockText ls).data ++ more
        = l.data ++ '\n' :: ((blockText ls).data ++ more) := by
      simp
    rw [hdata,
      splitBy_append (fun c => c == '\n') l.data '\n' _
        (fun x hx => by
          simp only [beq_eq_false_iff_ne, ne_eq]
          exact fun he => (h l (List.mem_cons_self _ _)) (he ▸ hx))
        rfl,
      splitBy_blockText ls more (fun x hx => h x (List.mem_cons_of_mem _ hx)),
      List.map_cons, List.cons_append]

theorem from_ldif_text :
    ∀ recs : List (String × List (String × List String)),
      (∀ dr ∈ recs, safeString dr.1 = true
        ∧ (∀ kv ∈ dr.2, validRTKey kv.1 = true ∧ kv.2 ≠ []
            ∧ ∀ v ∈ kv.2, safeString v = true)
        ∧ (dr.2.map Prod.fst).Nodup) →
      from_ldif (concatStr (recs.map (fun dr => blockText (recLines dr.1 dr.2) ++ "\n")))
        = .ok (recs.map (fun dr => PyVal.dict ((PyVal.str "dn", PyVal.str dr.1) ::
            dr.2.map (fun kv => (PyVal.str kv.1, PyVal.list (kv.2.map PyVal.str))))))
  | [], _ => rfl
  | dr :: rest, h => by
    obtain ⟨hds, hprops, hnd⟩ := h dr (List.mem_cons_self _ _)
    have ih := from_ldif_text rest (fun x hx => h x (List.mem_cons_of_mem _ hx))
    have hpr := recLines_props dr.1 dr.2 hds hprops
    rw [from_ldif] at ih ⊢
    rw [List.map_cons, concatStr]
    have hdata : (blockText (recLines dr.1 dr.2) ++ "\n"
          ++ concatStr (rest.map (fun dr => blockText (recLines dr.1 dr.2) ++ "\n"))).data
        = (blockText (recLines dr.1 dr.2)).data
          ++ '\n' :: (concatStr (rest.map
              (fun dr => blockText (recLines dr.1 dr.2) ++ "\n"))).data := by
      simp
    rw [hdata,
      splitBy_blockText (recLines dr.1 dr.2) _ (fun l hl => (hpr l hl).2.1),
      show splitBy (fun c => c == '\n')
          ('\n' :: (concatStr (rest.map
            (fun dr => blockText (recLines dr.1 dr.2) ++ "\n"))).data)
        = [] :: splitBy (fun c => c == '\n')
            (concatStr (rest.map
              (fun dr => blockText (recLines dr.1 dr.2) ++ "\n"))).data
        from by rw [splitBy]; rfl,
      splitBy_append (fun l => l == ([] : List Char))
        ((recLines dr.1 dr.2).map String.data) [] _
        (fun x hx => by
          obtain ⟨s, hs, he⟩ := List.mem_map.mp hx
          simp only [beq_eq_false_iff_ne, ne_eq]
          exact he ▸ (hpr s hs).1)
        rfl,
      parseGroups, parseEntry_record dr.1 dr.2 hds hprops hnd, ih]
    rfl

theorem rtProc_eq (entries : List (PyVal × PyVal)) (d : String)
    (hd : (entries.find? (fun kv => kv.1 == PyVal.str "dn")).map Prod.snd
      = some (PyVal.str d)) :
    rtProc (PyVal.dict entries) = (d, procAttrs entries) := by
  have e2 : rtProc (PyVal.dict entries)
      = (match (entries.find? (fun kv => kv.1 == PyVal.str "dn")).map Prod.snd with
         | some (PyVal.str d1) => (d1, procAttrs entries)
         | _ => ("", [])) := rfl
  rw [e2, hd]

theorem rtProc_props (r : PyVal) (h : validRTRec r = true) :
    safeString (rtProc r).1 = true
    ∧ (∀ kv ∈ (rtProc r).2, validRTKey kv.1 = true ∧ kv.2 ≠ []
        ∧ ∀ v ∈ kv.2, safeString v = true)
    ∧ ((rtProc r).2.map Prod.fst).Nodup := by
  rcases r with s | n | bs | es | entries | _
  · exact Bool.noConfusion (show (false : Bool) = true from h)
  · exact Bool.noConfusion (show (false : Bool) = true from h)
  · exact Bool.noConfusion (show (false : Bool) = true from h)
  · exact Bool.noConfusion (show (false : Bool) = true from h)
  · obtain ⟨hnd, ⟨d, hd, hds⟩, hall⟩ := validRTRec_shape entries h
    rw [rtProc_eq entries d hd]
    refine ⟨hds, procAttrs_props entries hall, ?_⟩
    have hk := procAttrs_keys entries hall
    have hsub : ((entries.filter (fun kv => !(kv.1 == PyVal.str "dn"))).map
        Prod.fst).Sublist (entries.map Prod.fst) :=
      (List.filter_sublist entries).map Prod.fst
    have hnd2 : ((procAttrs entries).map (fun kv => PyVal.str kv.1)).Nodup := by
      rw [hk]
      exact hsub.nodup hnd
    rw [show (fun (kv : String × List String) => PyVal.str kv.1)
        = PyVal.str ∘ Prod.fst from rfl, ← List.map_map] at hnd2
    exact hnd2.of_map PyVal.str
  · exact Bool.noConfusion (show (false : Bool) = true from h)

theorem expectedRT_of_valid (r : PyVal) (h : validRTRec r = true) :
    PyVal.dict ((PyVal.str "dn", PyVal.str (rtProc r).1) ::
      (rtProc r).2.map (fun kv => (PyVal.str kv.1, PyVal.list (kv.2.map PyVal.str))))
      = expectedRT r := by
  rcases r with s | n | bs | es | entries | _
  · exact Bool.noConfusion (show (false : Bool) = true from h)
  · exact Bool.noConfusion (show (false : Bool) = true from h)
  · exact Bool.noConfusion (show (false : Bool) = true from h)
  · exact Bool.noConfusion (show (false : Bool) = true from h)
  · obtain ⟨hnd, ⟨d, hd, hds⟩, hall⟩ := validRTRec_shape entries h
    have e1 : expectedRT (PyVal.dict entries)
        = (match (entries.find? (fun kv => kv.1 == PyVal.str "dn")).map Prod.snd with
           | some dnv =>
             PyVal.dict ((PyVal.str "dn", dnv) ::
               (entries.filter (fun kv => !(kv.1 == PyVal.str "dn"))).map
                 (fun kv => (kv.1, PyVal.list (rtValueList kv.2))))
           | none => PyVal.dict entries) := rfl
    rw [e1, hd, rtProc_eq entries d hd, procAttrs_expected entries hall]
  · exact Bool.noConfusion (show (false : Bool) = true from h)

/-- C7 counterexample: a record whose only attribute key is the upper-case
`CN` (a plain text value, no base64-required characters) serializes to
`dn: dc=x`, `CN: v`, but parsing that text back lower-cases the key to
`cn`, so the original attribute mapping is not reproduced. -/
theorem C7_counterexample :
    to_ldif (.list [.dict [(.str "dn", .str "dc=x"), (.str "CN", .list [.str "v"])]])
        = .ok "dn: dc=x\nCN: v\n\n"
    ∧ from_ldif "dn: dc=x\nCN: v\n\n"
        = .ok [.dict [(.str "dn", .str "dc=x"), (.str "cn", .list [.str "v"])]]
    ∧ (Except.ok [PyVal.dict [(.str "dn", .str "dc=x"),
          (.str "cn", .list [.str "v"])]]
        ≠ (.ok [PyVal.dict [(.str "dn", .str "dc=x"), (.str "CN", .list [.str "v"])]]
            : Except FromLdifErr (List PyVal))) :=
  ⟨by decide, by decide, by decide⟩

/-- C7 (amended): for every record set whose records are dictionaries with
distinct keys, a safe-string `dn`, and attributes with already-lower-case,
colon- and newline-free keys not starting a comment or continuation line,
whose values are safe strings, integers, or non-empty lists of such,
`to_ldif` succeeds and `from_ldif` on its output reproduces, for each
record in order, the original DN and attribute mapping with every value
normalized to a list of strings (integers in their decimal form). -/
theorem C7_round_trip (records : List PyVal)
    (h : ∀ r ∈ records, validRTRec r = true) :
    ∃ text, to_ldif (.list records) = .ok text
      ∧ from_ldif text = .ok (records.map expectedRT) := by
  refine ⟨concatStr ((records.map rtProc).map
      (fun dr => blockText (recLines dr.1 dr.2) ++ "\n")), ?_, ?_⟩
  · have e : to_ldif (PyVal.list records)
        = (processAll records).map (fun recs =>
            concatStr (recs.map (fun dr => blockText (recLines dr.1 dr.2) ++ "\n"))) := rfl
    rw [e, processAll_eq records h]
    rfl
  · rw [from_ldif_text (records.map rtProc)
      (fun dr hdr => by
        obtain ⟨r, hr, he⟩ := List.mem_map.mp hdr
        exact he ▸ rtProc_props r (h r hr))]
    rw [List.map_map]
    congr 1
    apply List.map_congr_left
    intro r hr
    show PyVal.dict ((PyVal.str "dn", PyVal.str (rtProc r).1) ::
      (rtProc r).2.map (fun kv => (PyVal.str kv.1, PyVal.list (kv.2.map PyVal.str))))
      = expectedRT r
    exact expectedRT_of_valid r (h r hr)

/-- Witness for C7: a concrete two-record set that satisfies the amended
hypotheses round-trips as stated. -/
theorem C7_witness :
    (∀ r ∈ [PyVal.dict [(PyVal.str "dn", PyVal.str "ou=a,dc=x"),
          (PyVal.str "cn", PyVal.list [PyVal.str "v", PyVal.str "w"]),
          (PyVal.str "uidnumber", PyVal.int 7)],
        PyVal.dict [(PyVal.str "dn", PyVal.str "dc=x")]], validRTRec r = true)
    ∧ ∃ text,
        to_ldif (.list [PyVal.dict [(PyVal.str "dn", PyVal.str "ou=a,dc=x"),
            (PyVal.str "cn", PyVal.list [PyVal.str "v", PyVal.str "w"]),
            (PyVal.str "uidnumber", PyVal.int 7)],
          PyVal.dict [(PyVal.str "dn", PyVal.str "dc=x")]]) = .ok text
        ∧ from_ldif text
          = .ok ([PyVal.dict [(PyVal.str "dn", PyVal.str "ou=a,dc=x"),
              (PyVal.str "cn", PyVal.list [PyVal.str "v", PyVal.str "w"]),
              (PyVal.str "uidnumber", PyVal.int 7)],
            PyVal.dict [(PyVal.str "dn", PyVal.str "dc=x")]].map expectedRT) :=
  ⟨by decide, C7_round_trip _ (by decide)⟩

end Ldif
